import Mathlib

/-!
Shallow embedding of the TurtleDreams repository's hash-to-grammar compiler
(src/PlantDreams.py) and proofs about it.

Conventions of the embedding:
* Python strings are modelled as `List Char`; Python `bytes` as `List Nat`
  (each entry a byte value; all bit operations apply the same masks as the
  source, so no separate `< 256` bound is needed).
* Python dicts are modelled as association lists `List (Char × List Char)`
  in insertion order; lookup is first-match.
* The Python `int` stack counter is modelled as `Int` (Python integers are
  signed; `']' * stack` for a negative `stack` yields `""`, matched by
  `List.replicate stack.toNat ']'`).
* Text files are modelled as their list of lines (`List (List Char)`);
  `readline()` past end-of-file yields the empty line, matched by taking
  the head of an exhausted list with default `[]`.
-/

namespace PlantDreams

abbrev Table := List (Char × List Char)

/-- Source: `RULE_CHARS = "ABCDEFG"`. -/
def RULE_CHARS : List Char := "ABCDEFG".toList

/-- Source: `START_CHAR = "."`. -/
def START_CHAR : Char := '.'

/-- Source: `STOP_CHAR = '~'`. -/
def STOP_CHAR : Char := '~'

/-- Source: `RULE_SIZE_MAX = 15`. -/
def RULE_SIZE_MAX : Nat := 15

/-- Source: the 32-entry `COLORS` palette. -/
def COLORS : List String := [
    "#A846A0", "#7D4FFF", "#8A71CE", "#FF7FED",
    "#FFB766", "#FFD800", "#FFE14F", "#FF7A28",
    "#5EF1FF", "#FFECEA", "#FF877C", "#7C87FF",
    "#FF5E5E", "#FCFF54", "#DACCFF", "#8EC8FF",
    "#FFFFFF", "#FF99A1", "#FF3DAE", "#D756FF",
    "#FF757E", "#758EFF", "#9F4CFF", "#87FFFD",
    "#3D91FF", "#2172FF", "#FF26CC", "#FF7FEB",
    "#EE9EFF", "#FFC587", "#F9D8FF", "#FFF2CE"
]

/-- Source: `empty_stack_transitions_6op` (the `STOP_CHAR` concatenations of
the source are written literally, with `~` in place of `" + STOP_CHAR + "`). -/
def empty_stack_transitions_6op : Table := [
    ('.', "ABCDEFGAB[[[[DFG".toList),
    ('A', "ABCDEFG[[[[[@~+[".toList),
    ('B', "ABCDEFG[[[[[@~[-".toList),
    ('C', "ABCDEFG[[[[[@~+[".toList),
    ('D', "ABCDEFG[[[[[@~[-".toList),
    ('E', "ABCDEFG[[[[[@~+[".toList),
    ('F', "ABCDEFG[[[[[@~[-".toList),
    ('G', "ABCDEFG[[[[[@~+[".toList),
    ('+', "ABCDEFG+A[+D@~+[".toList),
    ('-', "ABCDEFGB-[C-@~[-".toList),
    (']', "ABCD[[[@@[EF@~G[".toList),
    ('@', "ABCDEFG[[[EFG~+-".toList)
]

/-- Source: `nonempty_transitions_6op`. -/
def nonempty_transitions_6op : Table := [
    ('A', "ABCDEFG+-[]A@~]-".toList),
    ('B', "ABCDE-G+-[]B@~+]".toList),
    ('C', "ABCD+FG+-[]C@~[-".toList),
    ('D', "ABC-EFG+-[]D@~+]".toList),
    ('E', "AB+DEFG+-[]E@~[-".toList),
    ('F', "A-CDEFG+-[]F@~+]".toList),
    ('G', "+BCDEFG+-[]G@~]-".toList),
    ('+', "ABCDEFG+A[BD@E+F".toList),
    ('-', "ABCDEFGB-[CD@FG-".toList),
    ('[', "+-+-+-C+-[+-+-+-".toList),
    (']', "ABCD[[[]-[+-@~[]".toList),
    ('@', "AB]]]]G+-[+--~+-".toList)
]

/-- Source: `empty_stack_transitions_full`. -/
def empty_stack_transitions_full : Table := [
    ('.', "ABCDEFGAB[[[[DFG".toList),
    ('A', "ABCDEFG[[[[[@~&)".toList),
    ('B', "ABCDEFG[[[[[@~(&".toList),
    ('C', "ABCDEFG[[[[[@~&)".toList),
    ('D', "ABCDEFG[[[[[@~(&".toList),
    ('E', "ABCDEFG[[[[[@~&)".toList),
    ('F', "ABCDEFG[[[[[@~(&".toList),
    ('G', "ABCDEFG[[[[[@~&)".toList),
    ('+', "ABCDEFG+A[+[@~(&".toList),
    ('-', "ABCDEFGB-[C[@~&)".toList),
    (']', "ABCD[[[@@[E[@~(&".toList),
    ('@', "ABCDEFG[[[E[G~&)".toList),
    ('&', "ABCDEFG+-[[-@~()".toList),
    ('(', "ABCDEFG+-[[&@~(@".toList),
    (')', "ABCDEFG+-[[&@~@)".toList)
]

/-- Source: `nonempty_transitions_full`. -/
def nonempty_transitions_full : Table := [
    ('A', "ABCDEFG+-[]&@~()".toList),
    ('B', "ABCDE-G+-[]&@~()".toList),
    ('C', "ABCD+FG+-[]&@~()".toList),
    ('D', "ABC-EFG+-[]&@~()".toList),
    ('E', "AB+DEFG+-[]&@~()".toList),
    ('F', "A-CDEFG+-[]&@~()".toList),
    ('G', "+BCDEFG+-[]&@~()".toList),
    ('+', "ABCDEFG+A[B&@E+F".toList),
    ('-', "ABCDEFGB-[C&@FG-".toList),
    ('[', "+-+-+-C+-[+-+-+-".toList),
    (']', "ABCD[[[]-[+&@~[]".toList),
    ('@', "AB]]]]G+-[+&-~+-".toList),
    ('&', "ABCDEFG+-[[+@~()".toList),
    ('(', "ABCDEFG+-[[&@~(E".toList),
    (')', "ABCDEFG+-[[&@~F)".toList)
]

/-- First-match association-list lookup, modelling Python dict indexing
`d[c]` (as an `Option`; the source only indexes present keys). -/
def dict_get : Table → Char → Option (List Char)
  | [], _ => none
  | p :: t, c => if p.1 = c then some p.2 else dict_get t c

/-- Source: `bytes_to_nibbles` — two nibbles per byte, high nibble first. -/
def bytes_to_nibbles (in_bytes : List Nat) : List Nat :=
  in_bytes.foldr (fun b n => ((b >>> 4) &&& 0xF) :: (b &&& 0xF) :: n) []

/-- Source: `RULE_CHARS.index(char)` (first occurrence; the source only
calls it on characters present in `RULE_CHARS`). -/
def char_index (c : Char) : List Char → Nat
  | [] => 0
  | x :: xs => if x = c then 0 else char_index c xs + 1

/-- Source: the per-character replacement inside `rectify_transition`:
a superset letter not among `available_chars` becomes
`available_chars[RULE_CHARS.index(char) % len(available_chars)]`. -/
def rectify_char (available_chars : List Char) (c : Char) : Char :=
  if c ∈ RULE_CHARS ∧ c ∉ available_chars then
    available_chars.getD (char_index c RULE_CHARS % available_chars.length) '?'
  else c

/-- Source: `rectify_transition` — rebuild every row with out-of-range
letters remapped, other entries untouched. -/
def rectify_transition (tran : Table) (available_chars : List Char) : Table :=
  tran.map (fun p => (p.1, p.2.map (rectify_char available_chars)))

/-- Source: the `num_of_chars` computation in the hash-to-grammar
compiler (embedded below as `pushdown_automaton`):
top 3 bits of byte 0, raw values below 2 bumped by 2. -/
def num_of_chars_of (first : Nat) : Nat :=
  let n := (first >>> 5) &&& 0x7
  if n < 2 then n + 2 else n

/-- Source: `flower_color = COLORS[int(first & 0x1F)]`. -/
def flower_color_of (first : Nat) : String :=
  COLORS.getD (first &&& 0x1F) ""

/-- Source: the inner `for i in range(...)` loop of `pushdown_automaton`,
consuming a list of nibbles: look the nibble up in the table selected by
the stack counter, adjust the counter on push/pop, break on `STOP_CHAR`,
otherwise emit the character and make it the new state.  Returns the
emitted characters and the final stack counter.  A lookup the source
would crash on yields a harmless default (`'?'`); `pushdown_automaton_chk`
below re-does every lookup fallibly, and `c10_lookups_defined` proves the
defaults are never exercised on the source's tables. -/
def rule_loop (eT nT : Table) : List Nat → Char → Int → (List Char × Int)
  | [], _, stack => ([], stack)
  | n :: rest, state, stack =>
    let next_char := ((if stack = 0 then dict_get eT state else dict_get nT state).getD []).getD n '?'
    let stack1 : Int :=
      if next_char = '[' then stack + 1
      else if next_char = ']' then stack - 1
      else stack
    if next_char = STOP_CHAR then ([], stack1)
    else
      let r := rule_loop eT nT rest next_char stack1
      (next_char :: r.1, r.2)

/-- Source: one iteration of the outer `for idx, char in enumerate(...)`
loop of `pushdown_automaton`: run `rule_loop` on this letter's nibble slice
(indices `idx*partition_size + i` for `i < min(RULE_SIZE_MAX,
partition_size)`), starting from `'.'` with stack `0`, then append one
`']'` per outstanding push. -/
def compiled_rule (eT nT : Table) (rule_nibbles : List Nat) (partition_size idx : Nat) :
    List Char :=
  let slice := (List.range (min RULE_SIZE_MAX partition_size)).map
    (fun i => rule_nibbles.getD (idx * partition_size + i) 0)
  let r := rule_loop eT nT slice START_CHAR 0
  r.1 ++ List.replicate r.2.toNat ']'

structure PlantSystem where
  rules : List (Char × List Char)
  seed : List Char
  color : String
  deriving Repr, DecidableEq

/-- Source: the hash-to-grammar compiler function of PlantDreams.py
(lines 156-211, taking `digest, empty_stack_transitions,
nonempty_transitions`) — decode the header byte, rectify both tables,
compile one rule per in-use letter, and derive the seed from the last
two bytes. -/
def pushdown_automaton (digest : List Nat) (empty_stack_transitions nonempty_transitions : Table) :
    PlantSystem :=
  let first := digest.headD 0
  let num_of_chars := num_of_chars_of first
  let flower_color := flower_color_of first
  let rule_nibbles := bytes_to_nibbles ((digest.drop 1).take 29)
  let partition_size := 58 / num_of_chars
  let available_chars := RULE_CHARS.take num_of_chars
  let eT := rectify_transition empty_stack_transitions available_chars
  let nT := rectify_transition nonempty_transitions available_chars
  let rules := available_chars.enum.map
    (fun p => (p.2, compiled_rule eT nT rule_nibbles partition_size p.1))
  let seed_nibbles := bytes_to_nibbles (digest.drop 30)
  let seed := seed_nibbles.map (fun nib => available_chars.getD (nib % num_of_chars) '?')
  { rules := rules, seed := seed, color := flower_color }

/-- Source: `LSystem.get_next_state` — rewrite every mapped character by
its rule, keep unmapped characters, concatenating in input order (the
`nstate += ...` accumulation is the fold). -/
def get_next_state (mapping : Table) (state : List Char) : List Char :=
  state.foldl (fun nstate c =>
    nstate ++ (match dict_get mapping c with
      | some v => v
      | none => [c])) []

/-! ### Fallible variant of the parser

`pushdown_automaton` above mirrors the source but discharges every container
access with a default value.  The variant below performs exactly the same
accesses fallibly (`Option`), so that "every lookup and index performed by
`pushdown_automaton` is defined" can be stated as: the fallible variant
returns `some` of the defaulted variant's result. -/

/-- One fallible table access `table[state][nibble]`. -/
def table_lookup_chk (t : Table) (c : Char) (n : Nat) : Option Char :=
  (dict_get t c).bind (fun row => row.get? n)

/-- `rule_loop` with every table access checked. -/
def rule_loop_chk (eT nT : Table) : List Nat → Char → Int → Option (List Char × Int)
  | [], _, stack => some ([], stack)
  | n :: rest, state, stack =>
    match (if stack = 0 then table_lookup_chk eT state n else table_lookup_chk nT state n) with
    | none => none
    | some next_char =>
      let stack1 : Int :=
        if next_char = '[' then stack + 1
        else if next_char = ']' then stack - 1
        else stack
      if next_char = STOP_CHAR then some ([], stack1)
      else
        match rule_loop_chk eT nT rest next_char stack1 with
        | none => none
        | some r => some (next_char :: r.1, r.2)

/-- `compiled_rule` with the nibble fetches and table accesses checked. -/
def compiled_rule_chk (eT nT : Table) (rule_nibbles : List Nat) (partition_size idx : Nat) :
    Option (List Char) :=
  ((List.range (min RULE_SIZE_MAX partition_size)).mapM
      (fun i => rule_nibbles.get? (idx * partition_size + i))).bind
    (fun slice => (rule_loop_chk eT nT slice START_CHAR 0).map
      (fun r => r.1 ++ List.replicate r.2.toNat ']'))

/-- `pushdown_automaton` with every list index and table access checked. -/
def pushdown_automaton_chk (digest : List Nat)
    (empty_stack_transitions nonempty_transitions : Table) : Option PlantSystem :=
  digest.head?.bind fun first =>
  (COLORS.get? (first &&& 0x1F)).bind fun flower_color =>
  let num_of_chars := num_of_chars_of first
  let rule_nibbles := bytes_to_nibbles ((digest.drop 1).take 29)
  let partition_size := 58 / num_of_chars
  let available_chars := RULE_CHARS.take num_of_chars
  let eT := rectify_transition empty_stack_transitions available_chars
  let nT := rectify_transition nonempty_transitions available_chars
  (available_chars.enum.mapM
      (fun p => (compiled_rule_chk eT nT rule_nibbles partition_size p.1).map
        (fun r => (p.2, r)))).bind fun rules =>
  ((bytes_to_nibbles (digest.drop 30)).mapM
      (fun nib => available_chars.get? (nib % num_of_chars))).map fun seed =>
  { rules := rules, seed := seed, color := flower_color }

/-! ### Persistence (`plant_to_file` / `plant_from_file`)

Files are modelled as their lists of lines. -/

/-- Python `str.strip()`: remove leading and trailing whitespace. -/
def strip_chars (l : List Char) : List Char :=
  ((l.dropWhile Char.isWhitespace).reverse.dropWhile Char.isWhitespace).reverse

/-- Python `str.split(":")`. -/
def split_colon : List Char → List (List Char)
  | [] => [[]]
  | c :: rest =>
    if c = ':' then [] :: split_colon rest
    else
      match split_colon rest with
      | [] => [[c]]
      | h :: t => (c :: h) :: t

/-- Python dict assignment `rules[key] = val` on an insertion-ordered
association list: overwrite in place if present, else append. -/
def dict_insert : List (List Char × List Char) → List Char → List Char →
    List (List Char × List Char)
  | [], k, v => [(k, v)]
  | p :: t, k, v => if p.1 = k then (k, v) :: t else p :: dict_insert t k v

/-- Source: `plant_to_file` — one `key : value` line per mapping entry, a
blank line, the seed line, then the color line. -/
def plant_to_lines (mapping : Table) (seed color : List Char) : List (List Char) :=
  mapping.map (fun p => p.1 :: (" : ".toList ++ p.2)) ++ [[], seed, color]

/-- Source: the `while (line := f.readline().strip()) != ""` loop of
`plant_from_file`.  A rule line without `':'` raises `IndexError` on
`l[1]` in the source, caught by the `except` clause which prints a
diagnostic and returns `(None, None, None)`; that path is the `none`
result here.  `readline()` at end-of-file yields the empty string, so an
exhausted line list ends the loop and leaves seed and color empty. -/
def read_loop (rules : List (List Char × List Char)) :
    List (List Char) → Option (List (List Char × List Char) × List Char × List Char)
  | [] => some (rules, [], [])
  | ln :: rest =>
    let line := strip_chars ln
    if line = [] then
      some (rules, strip_chars (rest.headD []), strip_chars ((rest.drop 1).headD []))
    else
      match split_colon line with
      | k :: v :: _ =>
        read_loop (dict_insert rules (strip_chars k)
          ((strip_chars v).filter (fun c => c ≠ '.'))) rest
      | _ => none

/-- Source: `plant_from_file`. -/
def plant_from_lines (lines : List (List Char)) :
    Option (List (List Char × List Char) × List Char × List Char) :=
  read_loop [] lines

/-- The line lists on which `plant_from_file` hits its exception handler:
some nonblank line before the blank separator has no `':'`. -/
def malformed_lines : List (List Char) → Bool
  | [] => false
  | ln :: rest =>
    let line := strip_chars ln
    if line = [] then false
    else
      match split_colon line with
      | _ :: _ :: _ => malformed_lines rest
      | _ => true

/-! ### Rule simplifier

The repository's source files contain no rule-simplification code; only
the specification (§4.5 Rule Simplifier) describes it.  The definitions
below are therefore modelled from the spec, not translated from source. -/

/-- Modelled from the spec: the "turn/swap/angle operators" of §4.5
(turn-left, turn-right, swap, angle-dec, angle-inc). -/
def is_turn_op (c : Char) : Bool :=
  c == '+' || c == '-' || c == '&' || c == '(' || c == ')'

/-- Modelled from the spec: after an opening bracket, try to consume a
(possibly empty) run of turn/swap/angle operators followed by the
matching `']'`; return the remainder on success.  Succeeding here means
the bracketed span has "no letters, no nested brackets, no marks". -/
def match_dead : List Char → Option (List Char)
  | [] => none
  | c :: rest =>
    if c = ']' then some rest
    else if is_turn_op c then match_dead rest
    else none

/-- Whether the list begins with a dead-bracket interior plus `']'`. -/
def front_dead (l : List Char) : Bool := (match_dead l).isSome

/-- Modelled from the spec: "find and remove any bracketed span `[ ... ]`
whose interior consists only of turn/swap/angle operators" — one elision
of the leftmost such span, `none` when no span exists. -/
def elide_once : List Char → Option (List Char)
  | [] => none
  | c :: rest =>
    if c = '[' then
      match match_dead rest with
      | some r => some r
      | none => (elide_once rest).map (fun t => c :: t)
    else (elide_once rest).map (fun t => c :: t)

/-- Modelled from the spec: "repeat to a fixed point" — iterate
`elide_once` with fuel; each elision removes at least two characters, so
fuel equal to the initial length reaches the fixed point. -/
def elide : Nat → List Char → List Char
  | 0, s => s
  | fuel + 1, s =>
    match elide_once s with
    | none => s
    | some t => elide fuel t

/-- Whether the list begins with `']'`. -/
def close_head : List Char → Bool
  | ']' :: _ => true
  | _ => false

/-- Modelled from the spec: "any run of one-or-more turn/swap/angle
operators immediately preceding a closing bracket is removed" — replace
`<operators>]` with `]` everywhere. -/
def collapse : List Char → List Char
  | [] => []
  | c :: rest =>
    let r := collapse rest
    if is_turn_op c && close_head r then r else c :: r

/-- Modelled from the spec: §4.5's Rule Simplifier, missing from the
source — dead-bracket elision to a fixed point, then trailing-operator
collapse before closing brackets. -/
def simplify (s : List Char) : List Char := collapse (elide s.length s)

/-- Whether some `'['` is followed by only turn/swap/angle operators up
to a `']'` (the existence of a dead bracketed span). -/
def has_dead : List Char → Bool
  | [] => false
  | c :: rest => ((c == '[') && front_dead rest) || has_dead rest

/-- Whether no turn/swap/angle operator immediately precedes a `']'`. -/
def no_op_close : List Char → Bool
  | [] => true
  | c :: rest => !(is_turn_op c && close_head rest) && no_op_close rest

/-! ### Named views of `pushdown_automaton`'s internal values -/

/-- `first = digest[0]` inside `pushdown_automaton`. -/
def parser_first (digest : List Nat) : Nat := digest.headD 0

/-- `num_of_chars` inside `pushdown_automaton`. -/
def parser_num (digest : List Nat) : Nat := num_of_chars_of (parser_first digest)

/-- `partition_size = 58 // num_of_chars` inside `pushdown_automaton`. -/
def parser_psize (digest : List Nat) : Nat := 58 / parser_num digest

/-- `available_chars = RULE_CHARS[:num_of_chars]` inside `pushdown_automaton`. -/
def parser_avail (digest : List Nat) : List Char := RULE_CHARS.take (parser_num digest)

/-- `rule_nibbles = bytes_to_nibbles(digest[1:30])` inside `pushdown_automaton`. -/
def parser_nibbles (digest : List Nat) : List Nat := bytes_to_nibbles ((digest.drop 1).take 29)

/-- `seed_nibbles = bytes_to_nibbles(digest[30:])` inside `pushdown_automaton`. -/
def parser_seed_nibbles (digest : List Nat) : List Nat := bytes_to_nibbles (digest.drop 30)

/-- Table rectification as performed inside `pushdown_automaton`. -/
def parser_rect (digest : List Nat) (t : Table) : Table :=
  rectify_transition t (parser_avail digest)

/-- The key column of a transition table. -/
def keys_of (t : Table) : List Char := t.map Prod.fst

/-- Well-formedness of a rectified table pair, sufficient for every lookup
of the automaton to be defined: the start state keys the empty-stack
table, brackets key the appropriate tables, every row has 16 entries, the
empty-stack table never emits `']'`, and every emitted character other
than push/stop (and pop, for the non-empty table) keys its own table. -/
def TablesOK (eT nT : Table) : Prop :=
  '.' ∈ keys_of eT ∧ '[' ∈ keys_of nT ∧ ']' ∈ keys_of eT ∧ ']' ∈ keys_of nT ∧
  (∀ p ∈ eT, p.2.length = 16) ∧ (∀ p ∈ nT, p.2.length = 16) ∧
  (∀ p ∈ eT, ∀ c ∈ p.2, c ≠ ']' ∧ (c ≠ '[' → c ≠ STOP_CHAR → c ∈ keys_of eT)) ∧
  (∀ p ∈ nT, ∀ c ∈ p.2, c ≠ '[' → c ≠ STOP_CHAR → c ≠ ']' → c ∈ keys_of nT)

/-- The corresponding conditions on a raw (unrectified) table pair, with
alphabet letters exempted (rectification maps them into the in-use
prefix, and every letter keys every table). -/
def BaseOK (eTb nTb : Table) : Prop :=
  '.' ∈ keys_of eTb ∧ '[' ∈ keys_of nTb ∧ ']' ∈ keys_of eTb ∧ ']' ∈ keys_of nTb ∧
  (∀ p ∈ eTb, p.2.length = 16) ∧ (∀ p ∈ nTb, p.2.length = 16) ∧
  (∀ c ∈ RULE_CHARS, c ∈ keys_of eTb ∧ c ∈ keys_of nTb) ∧
  (∀ p ∈ eTb, ∀ c ∈ p.2, c ≠ ']' ∧ (c ∉ RULE_CHARS → c ≠ '[' → c ≠ STOP_CHAR → c ∈ keys_of eTb)) ∧
  (∀ p ∈ nTb, ∀ c ∈ p.2, c ∉ RULE_CHARS → c ≠ '[' → c ≠ STOP_CHAR → c ≠ ']' → c ∈ keys_of nTb)

/-- The characters that may appear in a compiled rule: the alphabet
letters and the drawing operators. -/
def VALUE_CHARS : List Char := RULE_CHARS ++ "+-[]@&()".toList

/-! ## General helper lemmas -/

lemma getD_mem_or {α : Type} (l : List α) (n : Nat) (d : α) :
    l.getD n d ∈ l ∨ l.getD n d = d := by
  by_cases h : n < l.length
  · left
    rw [List.getD_eq_getElem l d h]
    exact List.getElem_mem h
  · right
    exact List.getD_eq_default _ _ (by omega)

lemma getD_mem_of_lt {α : Type} (l : List α) (n : Nat) (d : α) (h : n < l.length) :
    l.getD n d ∈ l := by
  rw [List.getD_eq_getElem l d h]
  exact List.getElem_mem h

lemma dict_get_mem (t : Table) (c : Char) (row : List Char) (h : dict_get t c = some row) :
    ∃ p ∈ t, p.2 = row := by
  induction t with
  | nil => simp [dict_get] at h
  | cons p tl ih =>
    rw [dict_get] at h
    split at h
    · exact ⟨p, List.mem_cons_self _ _, by simpa using h⟩
    · obtain ⟨q, hq, hq2⟩ := ih h
      exact ⟨q, List.mem_cons_of_mem _ hq, hq2⟩

lemma dict_get_of_mem_keys (t : Table) (c : Char) (h : c ∈ keys_of t) :
    ∃ row, dict_get t c = some row := by
  induction t with
  | nil => simp [keys_of] at h
  | cons p tl ih =>
    rw [dict_get]
    split
    · exact ⟨p.2, rfl⟩
    · rename_i h1
      apply ih
      simp only [keys_of, List.map_cons, List.mem_cons] at h
      rcases h with h2 | h2
      · exact absurd h2.symm h1
      · exact h2

lemma bytes_to_nibbles_length (bs : List Nat) :
    (bytes_to_nibbles bs).length = 2 * bs.length := by
  induction bs with
  | nil => rfl
  | cons b tl ih => simp [bytes_to_nibbles, List.foldr] at ih ⊢; omega

lemma bytes_to_nibbles_lt (bs : List Nat) : ∀ n ∈ bytes_to_nibbles bs, n < 16 := by
  induction bs with
  | nil => intro n h; simp [bytes_to_nibbles] at h
  | cons b tl ih =>
    intro n h
    simp only [bytes_to_nibbles, List.foldr, List.mem_cons] at h
    rcases h with h | h | h
    · subst h; have : (b >>> 4) &&& 0xF ≤ 0xF := Nat.and_le_right; omega
    · subst h; have : b &&& 0xF ≤ 0xF := Nat.and_le_right; omega
    · exact ih n h

lemma num_of_chars_eq (first : Nat) :
    num_of_chars_of first =
      if (first >>> 5) &&& 0x7 < 2 then ((first >>> 5) &&& 0x7) + 2
      else (first >>> 5) &&& 0x7 := rfl

lemma num_of_chars_bounds (first : Nat) :
    2 ≤ num_of_chars_of first ∧ num_of_chars_of first ≤ 7 := by
  have h7 : (first >>> 5) &&& 0x7 ≤ 7 := Nat.and_le_right
  rw [num_of_chars_eq]
  split_ifs <;> omega

lemma parser_avail_length (digest : List Nat) :
    (parser_avail digest).length = parser_num digest := by
  have h := (num_of_chars_bounds (parser_first digest)).2
  simp only [parser_avail, List.length_take, parser_num]
  have : RULE_CHARS.length = 7 := rfl
  omega

lemma parser_avail_sub (digest : List Nat) : parser_avail digest ⊆ RULE_CHARS :=
  List.take_subset _ _

lemma foldl_append_flatten (g : Char → List Char) (s : List Char) :
    ∀ a : List Char, s.foldl (fun acc c => acc ++ g c) a = a ++ (s.map g).flatten := by
  induction s with
  | nil => intro a; simp
  | cons c tl ih => intro a; simp [List.foldl, ih, List.append_assoc]

/-! ## Claim C3: header decoding -/

/-- Claim C3: the decoded symbol count is the top 3 bits of byte 0 with
raw values 0 and 1 mapped to 2 and 3, hence always in `{2,...,7}`, and
the color is the palette entry indexed directly (no modulo) by the low 5
bits of byte 0, an index always in range of the 32-entry palette. -/
theorem c3_header_decode (first : Nat) :
    (2 ≤ num_of_chars_of first ∧ num_of_chars_of first ≤ 7) ∧
    ((first >>> 5) &&& 0x7 = 0 → num_of_chars_of first = 2) ∧
    ((first >>> 5) &&& 0x7 = 1 → num_of_chars_of first = 3) ∧
    (2 ≤ (first >>> 5) &&& 0x7 → num_of_chars_of first = (first >>> 5) &&& 0x7) ∧
    (∃ h : first &&& 0x1F < COLORS.length,
      flower_color_of first = COLORS.get ⟨first &&& 0x1F, h⟩) ∧
    (∀ digest eTb nTb, (pushdown_automaton digest eTb nTb).color =
      flower_color_of (parser_first digest)) := by
  have h31 : first &&& 0x1F ≤ 31 := Nat.and_le_right
  have hlen : COLORS.length = 32 := rfl
  refine ⟨num_of_chars_bounds first, ?_, ?_, ?_, ⟨by omega, ?_⟩, fun _ _ _ => rfl⟩
  · intro h; rw [num_of_chars_eq]; simp [h]
  · intro h; rw [num_of_chars_eq]; simp [h]
  · intro h
    rw [num_of_chars_eq, if_neg (by omega)]
  · unfold flower_color_of
    exact List.getD_eq_get COLORS "" (by omega)

/-! ## Claim C6: transition-table rectification -/

/-- Claim C6: rectification replaces each superset letter outside the
in-use prefix by the in-use letter at (ordinal mod in-use count), leaves
non-letter entries (and in-use letters) unchanged, and the rectified
table contains no entry naming a letter outside the in-use alphabet. -/
theorem c6_rectify (tran : Table) (n : Nat) (h2 : 2 ≤ n) (h7 : n ≤ 7) :
    (∀ c ∈ RULE_CHARS, c ∉ RULE_CHARS.take n →
      rectify_char (RULE_CHARS.take n) c =
        (RULE_CHARS.take n).getD (char_index c RULE_CHARS % n) '?' ∧
      rectify_char (RULE_CHARS.take n) c ∈ RULE_CHARS.take n) ∧
    (∀ c, c ∉ RULE_CHARS → rectify_char (RULE_CHARS.take n) c = c) ∧
    (∀ c ∈ RULE_CHARS.take n, rectify_char (RULE_CHARS.take n) c = c) ∧
    (∀ p ∈ rectify_transition tran (RULE_CHARS.take n), ∀ c ∈ p.2,
      c ∈ RULE_CHARS → c ∈ RULE_CHARS.take n) := by
  have hlen : (RULE_CHARS.take n).length = n := by
    have : RULE_CHARS.length = 7 := rfl
    simp [List.length_take]
    omega
  have hmem : ∀ i : Nat, (RULE_CHARS.take n).getD (i % n) '?' ∈ RULE_CHARS.take n := by
    intro i
    exact getD_mem_of_lt _ _ _ (by rw [hlen]; exact Nat.mod_lt _ (by omega))
  refine ⟨?_, ?_, ?_, ?_⟩
  · intro c hc hcn
    have heq : rectify_char (RULE_CHARS.take n) c =
        (RULE_CHARS.take n).getD (char_index c RULE_CHARS % n) '?' := by
      unfold rectify_char
      rw [if_pos ⟨hc, hcn⟩, hlen]
    exact ⟨heq, heq ▸ hmem _⟩
  · intro c hc
    unfold rectify_char
    rw [if_neg (fun h => hc h.1)]
  · intro c hc
    unfold rectify_char
    rw [if_neg (fun h => h.2 hc)]
  · intro p hp c hc hrc
    simp only [rectify_transition, List.mem_map] at hp
    obtain ⟨q, -, hq⟩ := hp
    subst hq
    simp only [List.mem_map] at hc
    obtain ⟨c0, -, hc0⟩ := hc
    by_cases h : c0 ∈ RULE_CHARS ∧ c0 ∉ RULE_CHARS.take n
    · rw [← hc0]
      unfold rectify_char
      rw [if_pos h, hlen]
      exact hmem _
    · have hid : rectify_char (RULE_CHARS.take n) c0 = c0 := by
        unfold rectify_char
        rw [if_neg h]
      rw [← hc0, hid] at hrc ⊢
      rcases not_and_or.1 h with h1 | h1
      · exact absurd hrc h1
      · exact not_not.1 h1

/-- Witness for C6 at a concrete input: with the 2-letter alphabet, the
superset letter `'C'` is rectified into the in-use prefix. -/
theorem c6_rectify_witness :
    rectify_char (RULE_CHARS.take 2) 'C' ∈ RULE_CHARS.take 2 :=
  ((c6_rectify empty_stack_transitions_6op 2 (by decide) (by decide)).1 'C'
    (by decide) (by decide)).2

/-! ## Claim C7: the L-system rewriting step -/

/-- Claim C7: one rewriting step concatenates, in input order, the mapped
image of each mapped character and the character itself otherwise; the
Fibonacci grammar advances `"AB"` to `"ABA"` and then `"ABAAB"`; a string
of only unmapped symbols is returned unchanged. -/
theorem c7_get_next_state (m : Table) (s : List Char) :
    get_next_state m s = (s.map (fun c => (dict_get m c).getD [c])).flatten ∧
    get_next_state [('A', "AB".toList), ('B', "A".toList)] "AB".toList = "ABA".toList ∧
    get_next_state [('A', "AB".toList), ('B', "A".toList)]
      (get_next_state [('A', "AB".toList), ('B', "A".toList)] "AB".toList) = "ABAAB".toList ∧
    ((∀ c ∈ s, dict_get m c = none) → get_next_state m s = s) := by
  have hchar : ∀ (m' : Table) (s' : List Char),
      get_next_state m' s' = (s'.map (fun c => (dict_get m' c).getD [c])).flatten := by
    intro m' s'
    unfold get_next_state
    rw [show (fun (nstate : List Char) (c : Char) =>
        nstate ++ (match dict_get m' c with | some v => v | none => [c])) =
        (fun nstate c => nstate ++ (dict_get m' c).getD [c]) from by
      funext nstate c
      cases dict_get m' c <;> rfl]
    rw [foldl_append_flatten]
    rfl
  refine ⟨hchar m s, by decide, by decide, ?_⟩
  intro h
  rw [hchar]
  induction s with
  | nil => rfl
  | cons c tl ih =>
    simp only [List.map_cons, List.flatten_cons, h c (List.mem_cons_self _ _)]
    rw [ih (fun c' hc' => h c' (List.mem_cons_of_mem _ hc'))]
    rfl

/-- Witness for C7 at a concrete input: an empty grammar leaves an
operator string unchanged. -/
theorem c7_get_next_state_witness :
    get_next_state [] "+-".toList = "+-".toList :=
  (c7_get_next_state [] "+-".toList).2.2.2 (fun _ _ => rfl)

/-! ## Claim C5: the seed string -/

/-- Claim C5: for a 32-byte digest the seed has length exactly 4, its
i-th character is `available_chars[seed_nibbles[i] mod symbol_count]`
where the seed nibbles come from bytes 30-31, and it consists only of
in-use alphabet letters. -/
theorem c5_seed (digest : List Nat) (h32 : digest.length = 32) (eTb nTb : Table) :
    (pushdown_automaton digest eTb nTb).seed.length = 4 ∧
    (∀ i, i < 4 → (pushdown_automaton digest eTb nTb).seed.getD i '?' =
      (parser_avail digest).getD
        ((parser_seed_nibbles digest).getD i 0 % parser_num digest) '?') ∧
    (∀ c ∈ (pushdown_automaton digest eTb nTb).seed, c ∈ parser_avail digest) := by
  have hseed : (pushdown_automaton digest eTb nTb).seed =
      (parser_seed_nibbles digest).map
        (fun nib => (parser_avail digest).getD (nib % parser_num digest) '?') := rfl
  have hlen : (parser_seed_nibbles digest).length = 4 := by
    unfold parser_seed_nibbles
    rw [bytes_to_nibbles_length, List.length_drop, h32]
  have hnum := num_of_chars_bounds (parser_first digest)
  refine ⟨by rw [hseed, List.length_map, hlen], ?_, ?_⟩
  · intro i hi
    rw [hseed]
    have hi' : i < (parser_seed_nibbles digest).length := by omega
    rw [List.getD_eq_getElem _ _ (by simpa using hi'), List.getElem_map,
      List.getD_eq_getElem _ _ hi']
  · intro c hc
    rw [hseed] at hc
    obtain ⟨nib, _, hnib⟩ := List.mem_map.1 hc
    subst hnib
    apply getD_mem_of_lt
    rw [parser_avail_length]
    exact Nat.mod_lt _ (by unfold parser_num at *; omega)

/-- Witness for C5 at a concrete input: the all-zero digest yields the
seed `"AAAA"`. -/
theorem c5_seed_witness :
    (pushdown_automaton (List.replicate 32 0) empty_stack_transitions_6op
      nonempty_transitions_6op).seed.length = 4 :=
  (c5_seed (List.replicate 32 0) (by decide) empty_stack_transitions_6op
    nonempty_transitions_6op).1

/-! ## Claim C2: stack balance of compiled rules -/

lemma rule_loop_len (eT nT : Table) (l : List Nat) :
    ∀ (s : Char) (st : Int), (rule_loop eT nT l s st).1.length ≤ l.length := by
  induction l with
  | nil => intro s st; simp [rule_loop]
  | cons n rest ih =>
    intro s st
    simp only [rule_loop]
    set nc := ((if st = 0 then dict_get eT s else dict_get nT s).getD []).getD n '?' with hnc
    by_cases hstop : nc = STOP_CHAR
    · rw [if_pos hstop]
      simp
    · rw [if_neg hstop]
      simp only [List.length_cons]
      exact Nat.succ_le_succ (ih _ _)

lemma rule_loop_final (eT nT : Table) (l : List Nat) :
    ∀ (s : Char) (st : Int),
      (rule_loop eT nT l s st).2 =
        st + ((rule_loop eT nT l s st).1.count '[' : Int)
           - ((rule_loop eT nT l s st).1.count ']' : Int) := by
  induction l with
  | nil => intro s st; simp [rule_loop]
  | cons n rest ih =>
    intro s st
    simp only [rule_loop]
    set nc := ((if st = 0 then dict_get eT s else dict_get nT s).getD []).getD n '?' with hnc
    by_cases hstop : nc = STOP_CHAR
    · rw [if_pos hstop, hstop, if_neg (by decide), if_neg (by decide)]
      simp
    · rw [if_neg hstop]
      simp only [List.count_cons, beq_iff_eq]
      have hrec := ih nc (if nc = '[' then st + 1 else if nc = ']' then st - 1 else st)
      rw [hrec]
      split_ifs with h1 h2
      · rw [h1] at h2; exact absurd h2 (by decide)
      · push_cast; omega
      · push_cast; omega
      · push_cast; omega

lemma lookup_ne_close (eT : Table) (hE : ∀ p ∈ eT, ']' ∉ p.2) (s : Char) (n : Nat) :
    ((dict_get eT s).getD []).getD n '?' ≠ ']' := by
  cases h : dict_get eT s with
  | none => simp [h]
  | some row =>
    obtain ⟨p, hp, hp2⟩ := dict_get_mem _ _ _ h
    simp only [h, Option.getD_some]
    rcases getD_mem_or row n '?' with hm | hm
    · intro he
      exact hE p hp (hp2 ▸ (he ▸ hm))
    · rw [hm]; decide

lemma rule_loop_stack_ok (eT nT : Table) (hE : ∀ p ∈ eT, ']' ∉ p.2) (l : List Nat) :
    ∀ (s : Char) (st : Int), 0 ≤ st →
      0 ≤ (rule_loop eT nT l s st).2 ∧
      ∀ k, (((rule_loop eT nT l s st).1.take k).count ']' : Int) ≤
        st + (((rule_loop eT nT l s st).1.take k).count '[' : Int) := by
  induction l with
  | nil =>
    intro s st hst
    refine ⟨hst, fun k => ?_⟩
    simp [rule_loop]
    omega
  | cons n rest ih =>
    intro s st hst
    simp only [rule_loop]
    set nc := ((if st = 0 then dict_get eT s else dict_get nT s).getD []).getD n '?' with hnc
    set st1 : Int := (if nc = '[' then st + 1 else if nc = ']' then st - 1 else st) with hst1
    have hne : st = 0 → nc ≠ ']' := by
      intro h0
      rw [hnc, h0, if_pos rfl]
      exact lookup_ne_close eT hE s n
    have hnn : 0 ≤ st1 := by
      rw [hst1]
      split_ifs with h1 h2
      · omega
      · have : st ≠ 0 := fun h0 => hne h0 h2
        omega
      · omega
    by_cases hstop : nc = STOP_CHAR
    · rw [if_pos hstop]
      have e0 : st1 = st := by
        rw [hst1, if_neg (by rw [hstop]; decide), if_neg (by rw [hstop]; decide)]
      refine ⟨by simpa [e0] using hst, fun k => ?_⟩
      simp
      omega
    · rw [if_neg hstop]
      obtain ⟨hfin, hpre⟩ := ih nc st1 hnn
      refine ⟨hfin, fun k => ?_⟩
      cases k with
      | zero => simpa using hst
      | succ k =>
        simp only [List.take_succ_cons, List.count_cons, beq_iff_eq]
        have hk := hpre k
        by_cases h1 : nc = '['
        · have e1 : st1 = st + 1 := by rw [hst1, if_pos h1]
          rw [if_pos h1, if_neg (by rw [h1]; decide)]
          push_cast
          omega
        · by_cases h2 : nc = ']'
          · have e1 : st1 = st - 1 := by rw [hst1, if_neg h1, if_pos h2]
            have : st ≠ 0 := fun h0 => hne h0 h2
            rw [if_neg h1, if_pos h2]
            push_cast
            omega
          · have e1 : st1 = st := by rw [hst1, if_neg h1, if_neg h2]
            rw [if_neg h1, if_neg h2]
            push_cast
            omega

lemma compiled_rule_balanced (eT nT : Table) (hE : ∀ p ∈ eT, ']' ∉ p.2)
    (nibs : List Nat) (psize idx : Nat) :
    (compiled_rule eT nT nibs psize idx).count '[' =
      (compiled_rule eT nT nibs psize idx).count ']' ∧
    ∀ k, ((compiled_rule eT nT nibs psize idx).take k).count ']' ≤
      ((compiled_rule eT nT nibs psize idx).take k).count '[' := by
  have hdef : compiled_rule eT nT nibs psize idx =
      (rule_loop eT nT ((List.range (min RULE_SIZE_MAX psize)).map
          (fun i => nibs.getD (idx * psize + i) 0)) START_CHAR 0).1 ++
        List.replicate (rule_loop eT nT ((List.range (min RULE_SIZE_MAX psize)).map
          (fun i => nibs.getD (idx * psize + i) 0)) START_CHAR 0).2.toNat ']' := rfl
  set slice := (List.range (min RULE_SIZE_MAX psize)).map
    (fun i => nibs.getD (idx * psize + i) 0) with hslice
  set r := rule_loop eT nT slice START_CHAR 0 with hr
  have hfin := rule_loop_final eT nT slice START_CHAR 0
  have hok := rule_loop_stack_ok eT nT hE slice START_CHAR 0 (le_refl 0)
  rw [← hr] at hfin hok
  have hc21 : r.1.count ']' ≤ r.1.count '[' := by
    have := hok.1
    omega
  have htn : r.2.toNat = r.1.count '[' - r.1.count ']' := by omega
  constructor
  · rw [hdef]
    simp only [List.count_append, List.count_replicate]
    rw [if_neg (by decide), if_pos (by decide)]
    omega
  · intro k
    have hpre := hok.2 k
    rw [hdef, List.take_append_eq_append_take]
    simp only [List.count_append]
    by_cases hk : k ≤ r.1.length
    · rw [Nat.sub_eq_zero_of_le hk]
      simp only [List.take_zero, List.count_nil, Nat.add_zero]
      omega
    · have hlk : r.1.length ≤ k := le_of_lt (Nat.lt_of_not_le hk)
      rw [List.take_of_length_le hlk, List.take_replicate]
      have h1 : (List.replicate ((k - r.1.length) ⊓ r.2.toNat) ']').count ']' =
          (k - r.1.length) ⊓ r.2.toNat := List.count_replicate_self _ _
      have h2 : (List.replicate ((k - r.1.length) ⊓ r.2.toNat) ']').count '[' = 0 := by
        apply List.count_eq_zero_of_not_mem
        intro hm
        exact absurd (List.mem_replicate.1 hm).2 (by decide)
      rw [h1, h2]
      have hmin : (k - r.1.length) ⊓ r.2.toNat ≤ r.2.toNat := Nat.min_le_right _ _
      omega

lemma rect_values_no_close (t : Table) (avail : List Char)
    (hbase : ∀ p ∈ t, ']' ∉ p.2) (havail : ']' ∉ avail) :
    ∀ p ∈ rectify_transition t avail, ']' ∉ p.2 := by
  intro p hp
  simp only [rectify_transition, List.mem_map] at hp
  obtain ⟨q, hq, rfl⟩ := hp
  intro hc
  simp only [List.mem_map] at hc
  obtain ⟨c0, hc0, he⟩ := hc
  unfold rectify_char at he
  split at he
  · rcases getD_mem_or avail (char_index c0 RULE_CHARS % avail.length) '?' with hm | hm
    · exact havail (he ▸ hm)
    · rw [hm] at he
      exact absurd he (by decide)
  · exact hbase q hq (he ▸ hc0)

lemma e6_no_close : ∀ p ∈ empty_stack_transitions_6op, ']' ∉ p.2 := by decide

lemma efull_no_close : ∀ p ∈ empty_stack_transitions_full, ']' ∉ p.2 := by decide

/-- Claim C2: for every digest and both table variants, each raw compiled
rule is bracket-balanced — equally many `'['` and `']'`, and no prefix
has more `']'` than `'['`. -/
theorem c2_rules_balanced (digest : List Nat) (eTb nTb : Table)
    (hvar : (eTb = empty_stack_transitions_6op ∧ nTb = nonempty_transitions_6op) ∨
      (eTb = empty_stack_transitions_full ∧ nTb = nonempty_transitions_full))
    (c : Char) (r : List Char)
    (hmem : (c, r) ∈ (pushdown_automaton digest eTb nTb).rules) :
    r.count '[' = r.count ']' ∧
    ∀ k, (r.take k).count ']' ≤ (r.take k).count '[' := by
  have hrules : (pushdown_automaton digest eTb nTb).rules =
      (parser_avail digest).enum.map (fun p => (p.2,
        compiled_rule (parser_rect digest eTb) (parser_rect digest nTb)
          (parser_nibbles digest) (parser_psize digest) p.1)) := rfl
  rw [hrules] at hmem
  obtain ⟨q, hq, he⟩ := List.mem_map.1 hmem
  have hr : r = compiled_rule (parser_rect digest eTb) (parser_rect digest nTb)
      (parser_nibbles digest) (parser_psize digest) q.1 := by
    have := congrArg Prod.snd he
    simpa using this.symm
  have hE : ∀ p ∈ parser_rect digest eTb, ']' ∉ p.2 := by
    apply rect_values_no_close
    · rcases hvar with ⟨h1, -⟩ | ⟨h1, -⟩
      · rw [h1]; exact e6_no_close
      · rw [h1]; exact efull_no_close
    · intro hmem'
      exact absurd (parser_avail_sub digest hmem') (by decide)
  rw [hr]
  exact compiled_rule_balanced _ _ hE _ _ _

/-- Witness for C2 at a concrete input: the rule compiled for letter `A`
from the all-zero digest with the 6-operator tables is balanced. -/
theorem c2_rules_balanced_witness :
    (List.replicate 15 'A').count '[' = (List.replicate 15 'A').count ']' :=
  (c2_rules_balanced (List.replicate 32 0) _ _ (Or.inl ⟨rfl, rfl⟩) 'A'
    (List.replicate 15 'A') (by decide)).1

/-! ## Claim C1: compiled-rule length and input slice -/

lemma range_map_getD_eq {α : Type} (l : List α) (d : α) :
    ∀ (k a : Nat), a + k ≤ l.length →
      (List.range k).map (fun i => l.getD (a + i) d) = (l.drop a).take k := by
  intro k
  induction k with
  | zero => intro a h; simp
  | succ k ih =>
    intro a h
    rw [List.range_succ_eq_map]
    simp only [List.map_cons, List.map_map]
    have hdrop : l.drop a = l[a] :: l.drop (a + 1) :=
      List.drop_eq_getElem_cons (by omega)
    rw [hdrop, List.take_succ_cons]
    congr 1
    · rw [Nat.add_zero]
      exact List.getD_eq_getElem l d (by omega)
    · have hfn : ((fun i => l.getD (a + i) d) ∘ Nat.succ) =
          (fun i => l.getD ((a + 1) + i) d) := by
        funext i
        simp only [Function.comp]
        congr 1
        omega
      rw [hfn, ih (a + 1) (by omega)]

lemma parser_nibbles_length (digest : List Nat) (h32 : digest.length = 32) :
    (parser_nibbles digest).length = 58 := by
  unfold parser_nibbles
  rw [bytes_to_nibbles_length, List.length_take, List.length_drop, h32]
  decide

lemma slice_index_bound (digest : List Nat) (idx : Nat) (hidx : idx < parser_num digest) :
    idx * parser_psize digest + min RULE_SIZE_MAX (parser_psize digest) ≤ 58 := by
  have h1 : min RULE_SIZE_MAX (parser_psize digest) ≤ parser_psize digest :=
    Nat.min_le_right _ _
  have h2 : (idx + 1) * parser_psize digest ≤ parser_num digest * parser_psize digest :=
    Nat.mul_le_mul_right _ hidx
  have h3 : parser_num digest * parser_psize digest ≤ 58 := by
    unfold parser_psize
    rw [Nat.mul_comm]
    exact Nat.div_mul_le_self 58 (parser_num digest)
  have h4 : idx * parser_psize digest + parser_psize digest = (idx + 1) * parser_psize digest := by
    ring
  omega

/-- Counterexample to claim C1 as stated: for the digest whose rule bytes
are all `0x99`, the automaton pushes `'['` on every one of its 15 steps,
and the 15 trailing pops make the compiled rule 30 characters long —
strictly more than the claimed bound of 15. -/
theorem c1_counterexample :
    ('A', List.replicate 15 '[' ++ List.replicate 15 ']') ∈
      (pushdown_automaton (0 :: (List.replicate 29 0x99 ++ [0, 0]))
        empty_stack_transitions_6op nonempty_transitions_6op).rules ∧
    ¬ ((List.replicate 15 '[' ++ List.replicate 15 ']') : List Char).length ≤ 15 :=
  ⟨by decide, by decide⟩

/-- Claim C1 (amended): the rule for the letter at position `idx` is
compiled from the nibble slice
`rule_nibbles[idx*partition_size : idx*partition_size + min(15, partition_size)]`,
its loop output has at most `min(15, partition_size)` characters, and with
the trailing pops the whole rule has length at most
`2 * min(15, partition_size)` (at most 30) — not 15. -/
theorem c1_rule_slice_and_length (digest : List Nat) (h32 : digest.length = 32)
    (eTb nTb : Table) (idx : Nat) (hidx : idx < parser_num digest) :
    (pushdown_automaton digest eTb nTb).rules.getD idx ('?', []) =
      ((parser_avail digest).getD idx '?',
        compiled_rule (parser_rect digest eTb) (parser_rect digest nTb)
          (parser_nibbles digest) (parser_psize digest) idx) ∧
    compiled_rule (parser_rect digest eTb) (parser_rect digest nTb)
        (parser_nibbles digest) (parser_psize digest) idx =
      (rule_loop (parser_rect digest eTb) (parser_rect digest nTb)
          (((parser_nibbles digest).drop (idx * parser_psize digest)).take
            (min RULE_SIZE_MAX (parser_psize digest))) START_CHAR 0).1 ++
        List.replicate (rule_loop (parser_rect digest eTb) (parser_rect digest nTb)
          (((parser_nibbles digest).drop (idx * parser_psize digest)).take
            (min RULE_SIZE_MAX (parser_psize digest))) START_CHAR 0).2.toNat ']' ∧
    (compiled_rule (parser_rect digest eTb) (parser_rect digest nTb)
        (parser_nibbles digest) (parser_psize digest) idx).length ≤
      2 * min RULE_SIZE_MAX (parser_psize digest) := by
  have hslice : (List.range (min RULE_SIZE_MAX (parser_psize digest))).map
      (fun i => (parser_nibbles digest).getD (idx * parser_psize digest + i) 0) =
      ((parser_nibbles digest).drop (idx * parser_psize digest)).take
        (min RULE_SIZE_MAX (parser_psize digest)) := by
    apply range_map_getD_eq
    rw [parser_nibbles_length digest h32]
    exact slice_index_bound digest idx hidx
  have havail : idx < (parser_avail digest).length := by
    rw [parser_avail_length]; exact hidx
  refine ⟨?_, ?_, ?_⟩
  · have hrules : (pushdown_automaton digest eTb nTb).rules =
        (parser_avail digest).enum.map (fun p => (p.2,
          compiled_rule (parser_rect digest eTb) (parser_rect digest nTb)
            (parser_nibbles digest) (parser_psize digest) p.1)) := rfl
    rw [hrules]
    have hlen : idx < ((parser_avail digest).enum.map (fun p => (p.2,
        compiled_rule (parser_rect digest eTb) (parser_rect digest nTb)
          (parser_nibbles digest) (parser_psize digest) p.1))).length := by
      rw [List.length_map, List.enum_length]
      exact havail
    rw [List.getD_eq_getElem _ _ hlen, List.getElem_map, List.getElem_enum,
      List.getD_eq_getElem _ _ havail]
  · show ((rule_loop _ _ ((List.range (min RULE_SIZE_MAX (parser_psize digest))).map
        (fun i => (parser_nibbles digest).getD (idx * parser_psize digest + i) 0))
        START_CHAR 0).1 ++ _) = _
    rw [hslice]
  · have hout := rule_loop_len (parser_rect digest eTb) (parser_rect digest nTb)
      ((List.range (min RULE_SIZE_MAX (parser_psize digest))).map
        (fun i => (parser_nibbles digest).getD (idx * parser_psize digest + i) 0))
      START_CHAR 0
    have hfin := rule_loop_final (parser_rect digest eTb) (parser_rect digest nTb)
      ((List.range (min RULE_SIZE_MAX (parser_psize digest))).map
        (fun i => (parser_nibbles digest).getD (idx * parser_psize digest + i) 0))
      START_CHAR 0
    have hcnt := List.count_le_length '['
      (rule_loop (parser_rect digest eTb) (parser_rect digest nTb)
        ((List.range (min RULE_SIZE_MAX (parser_psize digest))).map
          (fun i => (parser_nibbles digest).getD (idx * parser_psize digest + i) 0))
        START_CHAR 0).1
    have hlen : compiled_rule (parser_rect digest eTb) (parser_rect digest nTb)
        (parser_nibbles digest) (parser_psize digest) idx =
      (rule_loop (parser_rect digest eTb) (parser_rect digest nTb)
        ((List.range (min RULE_SIZE_MAX (parser_psize digest))).map
          (fun i => (parser_nibbles digest).getD (idx * parser_psize digest + i) 0))
        START_CHAR 0).1 ++
      List.replicate (rule_loop (parser_rect digest eTb) (parser_rect digest nTb)
        ((List.range (min RULE_SIZE_MAX (parser_psize digest))).map
          (fun i => (parser_nibbles digest).getD (idx * parser_psize digest + i) 0))
        START_CHAR 0).2.toNat ']' := rfl
    rw [hlen, List.length_append, List.length_replicate]
    rw [List.length_map, List.length_range] at hout
    omega

/-- Witness for C1 (amended) at a concrete input: for the all-zero digest
the rule of the first letter is at most `2 * min 15 29 = 30` characters. -/
theorem c1_rule_slice_and_length_witness :
    (compiled_rule (parser_rect (List.replicate 32 0) empty_stack_transitions_6op)
        (parser_rect (List.replicate 32 0) nonempty_transitions_6op)
        (parser_nibbles (List.replicate 32 0))
        (parser_psize (List.replicate 32 0)) 0).length ≤
      2 * min RULE_SIZE_MAX (parser_psize (List.replicate 32 0)) :=
  (c1_rule_slice_and_length (List.replicate 32 0) (by decide)
    empty_stack_transitions_6op nonempty_transitions_6op 0 (by decide)).2.2

/-! ## Claim C4: the rule simplifier (spec-modelled) -/

lemma collapse_length (s : List Char) : (collapse s).length ≤ s.length := by
  induction s with
  | nil => simp [collapse]
  | cons c rest ih =>
    simp only [collapse]
    split
    · exact Nat.le_succ_of_le ih
    · simpa using Nat.succ_le_succ ih

lemma collapse_count (c : Char) (hc : is_turn_op c = false) (s : List Char) :
    (collapse s).count c = s.count c := by
  induction s with
  | nil => rfl
  | cons b rest ih =>
    simp only [collapse]
    split
    · rename_i h
      rw [Bool.and_eq_true] at h
      have hb : is_turn_op b = true := h.1
      have hbc : (b == c) = false := by
        simp only [beq_eq_false_iff_ne]
        intro he
        rw [he, hc] at hb
        exact Bool.false_ne_true hb
      rw [List.count_cons, hbc, ih]
      simp
    · rw [List.count_cons, List.count_cons, ih]

lemma no_op_close_collapse (s : List Char) : no_op_close (collapse s) = true := by
  induction s with
  | nil => rfl
  | cons c rest ih =>
    simp only [collapse]
    split
    · exact ih
    · rename_i h
      have hfalse : (is_turn_op c && close_head (collapse rest)) = false := by
        revert h
        cases is_turn_op c && close_head (collapse rest) <;> simp
      simp only [no_op_close, hfalse, ih]
      rfl

lemma collapse_of_no_op_close (s : List Char) (h : no_op_close s = true) : collapse s = s := by
  induction s with
  | nil => rfl
  | cons c rest ih =>
    simp only [no_op_close, Bool.and_eq_true, Bool.not_eq_true'] at h
    obtain ⟨h1, h2⟩ := h
    simp only [collapse, ih h2]
    rw [if_neg (by simp [h1])]

lemma match_dead_length (x : List Char) : ∀ r, match_dead x = some r → r.length + 1 ≤ x.length := by
  induction x with
  | nil => intro r h; simp [match_dead] at h
  | cons c rest ih =>
    intro r h
    simp only [match_dead] at h
    split_ifs at h with h1 h2
    · obtain rfl : rest = r := Option.some.inj h
      simp
    · have := ih r h
      simp only [List.length_cons]
      omega

lemma match_dead_count (x : List Char) (c : Char) (hc : is_turn_op c = false) (hcc : c ≠ ']') :
    ∀ r, match_dead x = some r → x.count c = r.count c := by
  induction x with
  | nil => intro r h; simp [match_dead] at h
  | cons b rest ih =>
    intro r h
    simp only [match_dead] at h
    split_ifs at h with h1 h2
    · obtain rfl : rest = r := Option.some.inj h
      have hbc : (b == c) = false := by
        simp only [beq_eq_false_iff_ne]
        intro he
        rw [he] at h1
        exact hcc h1
      rw [List.count_cons, hbc]
      simp
    · have hbc : (b == c) = false := by
        simp only [beq_eq_false_iff_ne]
        intro he
        rw [he, hc] at h2
        exact Bool.false_ne_true h2
      rw [List.count_cons, hbc, ih r h]
      simp

lemma elide_once_map_case {c : Char} {t rest : List Char}
    (h : (elide_once rest).map (fun x => c :: x) = some t) :
    ∃ t', elide_once rest = some t' ∧ t = c :: t' := by
  cases he : elide_once rest with
  | none => rw [he] at h; simp at h
  | some t' =>
    rw [he] at h
    simp only [Option.map_some', Option.some.injEq] at h
    exact ⟨t', rfl, h.symm⟩

lemma elide_once_length (s : List Char) : ∀ t, elide_once s = some t → t.length + 2 ≤ s.length := by
  induction s with
  | nil => intro t h; simp [elide_once] at h
  | cons c rest ih =>
    intro t h
    simp only [elide_once] at h
    split_ifs at h with h1
    · cases hm : match_dead rest with
      | some r =>
        rw [hm] at h
        have hrt := Option.some.inj h
        subst hrt
        have := match_dead_length rest r hm
        simp only [List.length_cons]
        omega
      | none =>
        rw [hm] at h
        obtain ⟨t', ht', rfl⟩ := elide_once_map_case h
        have := ih t' ht'
        simp only [List.length_cons]
        omega
    · obtain ⟨t', ht', rfl⟩ := elide_once_map_case h
      have := ih t' ht'
      simp only [List.length_cons]
      omega

lemma elide_once_count (s : List Char) (c : Char) (hc : is_turn_op c = false)
    (hb1 : c ≠ '[') (hb2 : c ≠ ']') :
    ∀ t, elide_once s = some t → t.count c = s.count c := by
  induction s with
  | nil => intro t h; simp [elide_once] at h
  | cons b rest ih =>
    intro t h
    simp only [elide_once] at h
    split_ifs at h with h1
    · cases hm : match_dead rest with
      | some r =>
        rw [hm] at h
        have hrt := Option.some.inj h
        subst hrt
        have hbc : (b == c) = false := by
          simp only [beq_eq_false_iff_ne]
          intro he
          rw [he] at h1
          exact hb1 h1
        rw [List.count_cons, hbc, ← match_dead_count rest c hc hb2 r hm]
        simp
      | none =>
        rw [hm] at h
        obtain ⟨t', ht', rfl⟩ := elide_once_map_case h
        rw [List.count_cons, List.count_cons, ih t' ht']
    · obtain ⟨t', ht', rfl⟩ := elide_once_map_case h
      rw [List.count_cons, List.count_cons, ih t' ht']

lemma elide_once_none_iff (s : List Char) : elide_once s = none ↔ has_dead s = false := by
  induction s with
  | nil => simp [elide_once, has_dead]
  | cons c rest ih =>
    simp only [elide_once, has_dead]
    by_cases h1 : c = '['
    · rw [if_pos h1]
      cases hm : match_dead rest with
      | some r => simp [front_dead, hm, h1]
      | none => simp [front_dead, hm, h1, Option.map_eq_none', ih]
    · rw [if_neg h1]
      have : (c == '[') = false := by simpa [beq_eq_false_iff_ne] using h1
      simp [this, Option.map_eq_none', ih]

lemma elide_fix (s : List Char) (h : elide_once s = none) : ∀ f, elide f s = s := by
  intro f
  cases f with
  | zero => rfl
  | succ f => simp [elide, h]

lemma elide_length (f : Nat) : ∀ s : List Char, (elide f s).length ≤ s.length := by
  induction f with
  | zero => intro s; exact le_refl _
  | succ f ih =>
    intro s
    simp only [elide]
    cases he : elide_once s with
    | none => exact le_refl _
    | some t =>
      show (elide f t).length ≤ s.length
      have := elide_once_length s t he
      have := ih t
      omega

lemma elide_count (f : Nat) (c : Char) (hc : is_turn_op c = false)
    (hb1 : c ≠ '[') (hb2 : c ≠ ']') :
    ∀ s : List Char, (elide f s).count c = s.count c := by
  induction f with
  | zero => intro s; rfl
  | succ f ih =>
    intro s
    simp only [elide]
    cases he : elide_once s with
    | none => rfl
    | some t =>
      show (elide f t).count c = s.count c
      rw [ih t, elide_once_count s c hc hb1 hb2 t he]

lemma elide_none (f : Nat) : ∀ s : List Char, s.length ≤ f → elide_once (elide f s) = none := by
  induction f with
  | zero =>
    intro s h
    have : s = [] := List.eq_nil_of_length_eq_zero (by omega)
    subst this
    rfl
  | succ f ih =>
    intro s h
    simp only [elide]
    cases he : elide_once s with
    | none => exact he
    | some t =>
      show elide_once (elide f t) = none
      apply ih
      have := elide_once_length s t he
      omega

lemma front_dead_collapse (r : List Char) (h : front_dead r = false) :
    front_dead (collapse r) = false := by
  induction r with
  | nil => simpa using h
  | cons c rest ih =>
    simp only [front_dead, match_dead] at h
    by_cases h1 : c = ']'
    · rw [if_pos h1] at h
      simp at h
    · rw [if_neg h1] at h
      by_cases h2 : is_turn_op c = true
      · rw [if_pos h2] at h
        have ihr := ih h
        simp only [collapse]
        by_cases h3 : close_head (collapse rest) = true
        · rw [if_pos (by rw [h2, h3]; rfl)]
          exact ihr
        · have h3' : close_head (collapse rest) = false := by
            revert h3
            cases close_head (collapse rest) <;> simp
          rw [if_neg (by simp [h3'])]
          simp only [front_dead, match_dead, if_neg h1, if_pos h2]
          exact ihr
      · have h2' : is_turn_op c = false := by
          revert h2
          cases is_turn_op c <;> simp
        simp only [collapse]
        rw [if_neg (by simp [h2'])]
        simp only [front_dead, match_dead, if_neg h1, h2']
        simp

lemma has_dead_collapse (s : List Char) (h : has_dead s = false) :
    has_dead (collapse s) = false := by
  induction s with
  | nil => simpa using h
  | cons c rest ih =>
    simp only [has_dead, Bool.or_eq_false_iff] at h
    obtain ⟨h1, h2⟩ := h
    simp only [collapse]
    by_cases h3 : (is_turn_op c && close_head (collapse rest)) = true
    · rw [if_pos h3]
      exact ih h2
    · rw [if_neg h3]
      simp only [has_dead, Bool.or_eq_false_iff]
      refine ⟨?_, ih h2⟩
      by_cases h4 : c = '['
      · have h5 : front_dead rest = false := by
          rw [h4] at h1
          simpa using h1
        rw [h4]
        simp only [beq_self_eq_true, Bool.true_and]
        exact front_dead_collapse rest h5
      · have : (c == '[') = false := by simpa [beq_eq_false_iff_ne] using h4
        simp [this]

/-- Claim C4 (spec-modelled): the Rule Simplifier of §4.5 is idempotent,
never increases rule length, and never removes a letter or mark
character. -/
theorem c4_simplify_props (r : List Char) :
    simplify (simplify r) = simplify r ∧
    (simplify r).length ≤ r.length ∧
    ∀ c, (c ∈ RULE_CHARS ∨ c = '@') → (simplify r).count c = r.count c := by
  have hchars : ∀ c : Char, (c ∈ RULE_CHARS ∨ c = '@') →
      is_turn_op c = false ∧ c ≠ '[' ∧ c ≠ ']' := by
    intro c hc
    rcases hc with hc | rfl
    · have hrc : RULE_CHARS = ['A', 'B', 'C', 'D', 'E', 'F', 'G'] := rfl
      rw [hrc] at hc
      simp only [List.mem_cons, List.not_mem_nil, or_false] at hc
      rcases hc with rfl | rfl | rfl | rfl | rfl | rfl | rfl <;>
        exact ⟨rfl, by decide, by decide⟩
    · exact ⟨rfl, by decide, by decide⟩
  set u := elide r.length r with hu
  have hnone : elide_once u = none := elide_none r.length r (le_refl _)
  refine ⟨?_, ?_, ?_⟩
  · show collapse (elide (collapse u).length (collapse u)) = collapse u
    have hdead_u : has_dead u = false := (elide_once_none_iff u).1 hnone
    have hdead_cu : has_dead (collapse u) = false := has_dead_collapse u hdead_u
    have hnone_cu : elide_once (collapse u) = none := (elide_once_none_iff _).2 hdead_cu
    rw [elide_fix _ hnone_cu]
    exact collapse_of_no_op_close _ (no_op_close_collapse u)
  · calc (simplify r).length = (collapse u).length := rfl
      _ ≤ u.length := collapse_length u
      _ ≤ r.length := elide_length r.length r
  · intro c hc
    obtain ⟨hop, hbr1, hbr2⟩ := hchars c hc
    calc (simplify r).count c = (collapse u).count c := rfl
      _ = u.count c := collapse_count c hop u
      _ = r.count c := elide_count r.length c hop hbr1 hbr2 r

/-- Witness for C4 at a concrete input: simplifying `"[A+]"` (which
becomes `"[A]"`) preserves the letter `'A'`. -/
theorem c4_simplify_props_witness :
    (simplify "[A+]".toList).count 'A' = ("[A+]".toList).count 'A' :=
  (c4_simplify_props "[A+]".toList).2.2 'A' (Or.inl (by decide))

/-! ## Claims C8 and C9: grammar persistence -/

lemma dropWhile_all_false {p : Char → Bool} {l : List Char} (h : ∀ c ∈ l, p c = false) :
    l.dropWhile p = l := by
  cases l with
  | nil => rfl
  | cons c rest =>
    rw [List.dropWhile_cons, h c (List.mem_cons_self _ _)]
    simp

lemma strip_chars_no_ws (l : List Char) (h : ∀ c ∈ l, c.isWhitespace = false) :
    strip_chars l = l := by
  unfold strip_chars
  rw [dropWhile_all_false h,
    dropWhile_all_false (fun c hc => h c (List.mem_reverse.1 hc)),
    List.reverse_reverse]

lemma strip_chars_ends (l : List Char) (hh : ∀ c, l.head? = some c → c.isWhitespace = false)
    (hl : ∀ c, l.getLast? = some c → c.isWhitespace = false) : strip_chars l = l := by
  unfold strip_chars
  have h1 : l.dropWhile Char.isWhitespace = l := by
    cases l with
    | nil => rfl
    | cons c rest =>
      rw [List.dropWhile_cons, hh c rfl]
      simp
  rw [h1]
  have h2 : l.reverse.dropWhile Char.isWhitespace = l.reverse := by
    cases hr : l.reverse with
    | nil => rfl
    | cons c rest =>
      rw [List.dropWhile_cons]
      have hlast : l.getLast? = some c := by
        rw [← List.head?_reverse, hr]
        rfl
      rw [hl c hlast]
      simp
  rw [h2, List.reverse_reverse]

lemma strip_chars_space_cons (v : List Char) (hv : ∀ c ∈ v, c.isWhitespace = false) :
    strip_chars (' ' :: v) = v := by
  unfold strip_chars
  have h1 : List.dropWhile Char.isWhitespace (' ' :: v) = v := by
    rw [List.dropWhile_cons, show (' '.isWhitespace) = true from rfl]
    simp only [if_true]
    exact dropWhile_all_false hv
  rw [h1, dropWhile_all_false (fun c hc => hv c (List.mem_reverse.1 hc)),
    List.reverse_reverse]

lemma strip_chars_key (k : Char) (hk : k.isWhitespace = false) :
    strip_chars [k, ' '] = [k] := by
  unfold strip_chars
  have h1 : List.dropWhile Char.isWhitespace [k, ' '] = [k, ' '] := by
    rw [List.dropWhile_cons, hk]
    simp
  rw [h1, show ([k, ' '] : List Char).reverse = [' ', k] from rfl]
  have h2 : List.dropWhile Char.isWhitespace [' ', k] =
      List.dropWhile Char.isWhitespace [k] := by
    rw [List.dropWhile_cons, show (' '.isWhitespace) = true from rfl]
    simp
  rw [h2]
  have h3 : List.dropWhile Char.isWhitespace [k] = [k] := by
    rw [List.dropWhile_cons, hk]
    simp
  rw [h3]
  rfl

lemma split_colon_ne_nil (l : List Char) : split_colon l ≠ [] := by
  cases l with
  | nil => simp [split_colon]
  | cons c rest =>
    simp only [split_colon]
    split_ifs
    · simp
    · cases split_colon rest <;> simp

lemma split_colon_cons_ne (c : Char) (hc : c ≠ ':') (rest : List Char)
    (h : List Char) (t : List (List Char)) (hr : split_colon rest = h :: t) :
    split_colon (c :: rest) = (c :: h) :: t := by
  simp only [split_colon]
  rw [if_neg hc, hr]

lemma split_colon_cons_colon (rest : List Char) :
    split_colon (':' :: rest) = [] :: split_colon rest := by
  simp only [split_colon]
  simp

lemma split_colon_no_colon (l : List Char) (h : ∀ c ∈ l, c ≠ ':') : split_colon l = [l] := by
  induction l with
  | nil => rfl
  | cons c rest ih =>
    simp only [split_colon]
    rw [if_neg (h c (List.mem_cons_self _ _)),
      ih (fun c' hc' => h c' (List.mem_cons_of_mem _ hc'))]

lemma rule_line_parse (k : Char) (v : List Char)
    (hk : k.isWhitespace = false) (hkc : k ≠ ':')
    (hv : ∀ c ∈ v, c.isWhitespace = false ∧ c ≠ ':') :
    strip_chars (k :: ' ' :: ':' :: ' ' :: v) ≠ [] ∧
    ∃ w, split_colon (strip_chars (k :: ' ' :: ':' :: ' ' :: v)) = [[k, ' '], w] ∧
      strip_chars w = v := by
  by_cases hveq : v = []
  · subst hveq
    have hs : strip_chars [k, ' ', ':', ' '] = [k, ' ', ':'] := by
      unfold strip_chars
      have h1 : List.dropWhile Char.isWhitespace [k, ' ', ':', ' '] = [k, ' ', ':', ' '] := by
        rw [List.dropWhile_cons, hk]
        simp
      rw [h1]
      rfl
    rw [hs]
    have hsc : split_colon [k, ' ', ':'] = [[k, ' '], []] :=
      split_colon_cons_ne k hkc [' ', ':'] [' '] [[]] rfl
    exact ⟨by simp, [], hsc, rfl⟩
  · have hs : strip_chars (k :: ' ' :: ':' :: ' ' :: v) = k :: ' ' :: ':' :: ' ' :: v := by
      apply strip_chars_ends
      · intro c hc
        obtain rfl : k = c := Option.some.inj hc
        exact hk
      · intro c hc
        have hcm : c ∈ k :: ' ' :: ':' :: ' ' :: v := List.mem_of_mem_getLast? hc
        have hcv : c ∈ v := by
          have hgl : (k :: ' ' :: ':' :: ' ' :: v).getLast? = v.getLast? := by
            cases v with
            | nil => exact absurd rfl hveq
            | cons a t =>
              rfl
          rw [hgl] at hc
          exact List.mem_of_mem_getLast? hc
        exact (hv c hcv).1
    rw [hs]
    have h1 : split_colon (' ' :: v) = [' ' :: v] := by
      apply split_colon_no_colon
      intro c hc
      rcases List.mem_cons.1 hc with rfl | hc
      · decide
      · exact (hv c hc).2
    have h2 : split_colon (':' :: ' ' :: v) = [] :: [' ' :: v] := by
      rw [split_colon_cons_colon, h1]
    have h3 : split_colon (' ' :: ':' :: ' ' :: v) = [' '] :: [' ' :: v] :=
      split_colon_cons_ne ' ' (by decide) _ [] [' ' :: v] h2
    have h4 : split_colon (k :: ' ' :: ':' :: ' ' :: v) = [k, ' '] :: [' ' :: v] :=
      split_colon_cons_ne k hkc _ [' '] [' ' :: v] h3
    refine ⟨by simp, ' ' :: v, h4, ?_⟩
    exact strip_chars_space_cons v (fun c hc => (hv c hc).1)

lemma read_loop_cons (acc : List (List Char × List Char)) (ln : List Char)
    (rest : List (List Char)) :
    read_loop acc (ln :: rest) =
      (if strip_chars ln = [] then
        some (acc, strip_chars (rest.headD []), strip_chars ((rest.drop 1).headD []))
      else
        match split_colon (strip_chars ln) with
        | k :: v :: _ =>
          read_loop (dict_insert acc (strip_chars k)
            ((strip_chars v).filter (fun c => c ≠ '.'))) rest
        | _ => none) := rfl

lemma dict_insert_fresh (acc : List (List Char × List Char)) (k v : List Char)
    (h : ∀ p ∈ acc, p.1 ≠ k) : dict_insert acc k v = acc ++ [(k, v)] := by
  induction acc with
  | nil => rfl
  | cons p t ih =>
    simp only [dict_insert]
    rw [if_neg (h p (List.mem_cons_self _ _)),
      ih (fun q hq => h q (List.mem_cons_of_mem _ hq))]
    rfl

lemma rule_chars_line_facts :
    ∀ c ∈ RULE_CHARS, c.isWhitespace = false ∧ c ≠ ':' := by decide

lemma value_chars_line_facts :
    ∀ c ∈ VALUE_CHARS, c.isWhitespace = false ∧ c ≠ ':' ∧ c ≠ '.' := by decide

lemma read_loop_write (m : Table) (seed color : List Char) :
    ∀ acc : List (List Char × List Char),
    (∀ p ∈ m, p.1 ∈ RULE_CHARS) →
    (∀ p ∈ m, ∀ c ∈ p.2, c ∈ VALUE_CHARS) →
    (∀ c ∈ seed, c ∈ RULE_CHARS) →
    (∀ c ∈ color, c.isWhitespace = false) →
    (m.map Prod.fst).Nodup →
    (∀ p ∈ m, [p.1] ∉ acc.map Prod.fst) →
    read_loop acc (plant_to_lines m seed color) =
      some (acc ++ m.map (fun p => ([p.1], p.2)), seed, color) := by
  induction m with
  | nil =>
    intro acc _ _ hseed hcol _ _
    show read_loop acc ([] :: [seed, color]) = _
    rw [read_loop_cons, if_pos (show strip_chars [] = [] from rfl)]
    have hseedws : ∀ c ∈ seed, c.isWhitespace = false :=
      fun c hc => (rule_chars_line_facts c (hseed c hc)).1
    show some (acc, strip_chars seed, strip_chars color) = _
    rw [strip_chars_no_ws seed hseedws, strip_chars_no_ws color hcol]
    simp
  | cons p m' ih =>
    intro acc hkeys hvals hseed hcol hnd hfresh
    obtain ⟨k, v⟩ := p
    have hk : k ∈ RULE_CHARS := hkeys (k, v) (List.mem_cons_self _ _)
    have hkws : k.isWhitespace = false := (rule_chars_line_facts k hk).1
    have hkc : k ≠ ':' := (rule_chars_line_facts k hk).2
    have hvv : ∀ c ∈ v, c.isWhitespace = false ∧ c ≠ ':' := by
      intro c hc
      have := value_chars_line_facts c (hvals (k, v) (List.mem_cons_self _ _) c hc)
      exact ⟨this.1, this.2.1⟩
    obtain ⟨hne, w, hw, hwstrip⟩ := rule_line_parse k v hkws hkc hvv
    show read_loop acc ((k :: ' ' :: ':' :: ' ' :: v) :: plant_to_lines m' seed color) = _
    rw [read_loop_cons, if_neg hne, hw]
    show read_loop (dict_insert acc (strip_chars [k, ' '])
      ((strip_chars w).filter (fun c => c ≠ '.'))) (plant_to_lines m' seed color) = _
    have hfilter : (strip_chars w).filter (fun c => c ≠ '.') = v := by
      rw [hwstrip]
      apply List.filter_eq_self.2
      intro c hc
      have := value_chars_line_facts c (hvals (k, v) (List.mem_cons_self _ _) c hc)
      simpa using this.2.2
    rw [strip_chars_key k hkws, hfilter]
    have hfreshk : ∀ q ∈ acc, q.1 ≠ [k] := by
      intro q hq he
      exact hfresh (k, v) (List.mem_cons_self _ _)
        (he ▸ List.mem_map_of_mem Prod.fst hq)
    rw [dict_insert_fresh acc [k] v hfreshk]
    have hnd' : (m'.map Prod.fst).Nodup := (List.nodup_cons.1 hnd).2
    have hknotin : k ∉ m'.map Prod.fst := (List.nodup_cons.1 hnd).1
    rw [ih (acc ++ [([k], v)])
      (fun q hq => hkeys q (List.mem_cons_of_mem _ hq))
      (fun q hq => hvals q (List.mem_cons_of_mem _ hq))
      hseed hcol hnd'
      (fun q hq => by
        rw [List.map_append, List.mem_append]
        rintro (hin | hin)
        · exact hfresh q (List.mem_cons_of_mem _ hq) hin
        · simp only [List.map_cons, List.map_nil, List.mem_singleton] at hin
          have : q.1 = k := by
            have := List.cons.injEq q.1 [] k [] ▸ hin
            simpa using hin
          exact hknotin (this ▸ List.mem_map_of_mem Prod.fst hq))]
    simp [List.append_assoc]

/-- Claim C8: writing a compiled grammar triple to the persisted text
format and reading it back yields the same rules per letter, the same
seed, and the same color.  Keys are alphabet letters, rule strings draw
from the letters and operators, and the color is whitespace-free (true
of every palette entry). -/
theorem c8_round_trip (m : Table) (seed color : List Char)
    (hkeys : ∀ p ∈ m, p.1 ∈ RULE_CHARS)
    (hvals : ∀ p ∈ m, ∀ c ∈ p.2, c ∈ VALUE_CHARS)
    (hseed : ∀ c ∈ seed, c ∈ RULE_CHARS)
    (hcol : ∀ c ∈ color, c.isWhitespace = false)
    (hnd : (m.map Prod.fst).Nodup) :
    plant_from_lines (plant_to_lines m seed color) =
      some (m.map (fun p => ([p.1], p.2)), seed, color) := by
  have h := read_loop_write m seed color [] hkeys hvals hseed hcol hnd (by simp)
  simpa using h

/-- Witness for C8 at a concrete input: a two-letter grammar with a
bracketed rule round-trips through the persisted format. -/
theorem c8_round_trip_witness :
    plant_from_lines (plant_to_lines [('A', "AB[+]".toList), ('B', [])]
        "ABAB".toList "#FFFFFF".toList) =
      some ([(['A'], "AB[+]".toList), (['B'], [])], "ABAB".toList, "#FFFFFF".toList) :=
  c8_round_trip [('A', "AB[+]".toList), ('B', [])] "ABAB".toList "#FFFFFF".toList
    (by decide) (by decide) (by decide) (by decide) (by decide)

/-- Counterexample to claim C9 as stated: the malformed file consisting
of the single line `"A : B"` (no separator, seed, or color lines) is not
reported as a failure — `plant_from_file` returns the parsed rule with
empty seed and color, not the empty result. -/
theorem c9_counterexample :
    plant_from_lines ["A : B".toList] = some ([(['A'], ['B'])], [], []) ∧
    ([(['A'], ['B'])] : List (List Char × List Char)) ≠ [] :=
  ⟨by decide, by decide⟩

lemma read_loop_none_iff (ls : List (List Char)) : ∀ acc,
    (read_loop acc ls = none ↔ malformed_lines ls = true) := by
  induction ls with
  | nil =>
    intro acc
    simp [read_loop, malformed_lines]
  | cons ln rest ih =>
    intro acc
    simp only [read_loop, malformed_lines]
    by_cases h : strip_chars ln = []
    · rw [if_pos h, if_pos h]
      simp
    · rw [if_neg h, if_neg h]
      cases hs : split_colon (strip_chars ln) with
      | nil => exact absurd hs (split_colon_ne_nil _)
      | cons a t =>
        cases t with
        | nil => simp
        | cons b t' => exact ih _

/-- Claim C9 (amended): `plant_from_file` never propagates an exception;
it reports the diagnostic-and-empty-result failure exactly when some
nonblank line before the separator lacks a `':'` (or the file is
unreadable); a file merely truncated before the separator, seed, or
color lines instead yields the rules parsed so far with empty seed and
color and no diagnostic. -/
theorem c9_reader_failure (ls : List (List Char)) :
    plant_from_lines ls = none ↔ malformed_lines ls = true :=
  read_loop_none_iff ls []

/-! ## Claim C10: every lookup of the automaton is defined -/

lemma list_mapM_eq_map {α β : Type} (g : α → Option β) (g' : α → β) (l : List α)
    (h : ∀ a ∈ l, g a = some (g' a)) : l.mapM g = some (l.map g') := by
  induction l with
  | nil => rfl
  | cons a t ih =>
    rw [List.mapM_cons, h a (List.mem_cons_self _ _),
      ih (fun b hb => h b (List.mem_cons_of_mem _ hb))]
    rfl

lemma rule_loop_eta (eT nT : Table) (n : Nat) (rest : List Nat) (s : Char) (st : Int)
    (nc : Char) (hnc : ((if st = 0 then dict_get eT s else dict_get nT s).getD []).getD n '?' = nc)
    (st1 : Int) (hst1 : (if nc = '[' then st + 1 else if nc = ']' then st - 1 else st) = st1) :
    rule_loop eT nT (n :: rest) s st =
      if nc = STOP_CHAR then ([], st1)
      else (nc :: (rule_loop eT nT rest nc st1).1, (rule_loop eT nT rest nc st1).2) := by
  subst hnc
  subst hst1
  rfl

lemma rule_loop_chk_eta (eT nT : Table) (n : Nat) (rest : List Nat) (s : Char) (st : Int)
    (nc : Char)
    (hnc : (if st = 0 then table_lookup_chk eT s n else table_lookup_chk nT s n) = some nc)
    (st1 : Int) (hst1 : (if nc = '[' then st + 1 else if nc = ']' then st - 1 else st) = st1) :
    rule_loop_chk eT nT (n :: rest) s st =
      if nc = STOP_CHAR then some ([], st1)
      else
        match rule_loop_chk eT nT rest nc st1 with
        | none => none
        | some r => some (nc :: r.1, r.2) := by
  subst hst1
  simp only [rule_loop_chk, hnc]

lemma rule_loop_chk_eq (eT nT : Table) (hok : TablesOK eT nT) :
    ∀ (l : List Nat), (∀ x ∈ l, x < 16) →
    ∀ (s : Char) (st : Int), 0 ≤ st →
      (st = 0 → s ∈ keys_of eT) → (0 < st → s ∈ keys_of nT) →
      rule_loop_chk eT nT l s st = some (rule_loop eT nT l s st) := by
  obtain ⟨hdot, hopen, hclE, hclN, hlenE, hlenN, hvalE, hvalN⟩ := hok
  intro l
  induction l with
  | nil => intro _ s st _ _ _; rfl
  | cons n rest ih =>
    intro hl s st hst h0 hpos
    have hn : n < 16 := hl n (List.mem_cons_self _ _)
    have hl' : ∀ x ∈ rest, x < 16 := fun x hx => hl x (List.mem_cons_of_mem _ hx)
    by_cases hz : st = 0
    · -- empty-stack table
      obtain ⟨row, hrow⟩ := dict_get_of_mem_keys eT s (h0 hz)
      obtain ⟨p, hp, hp2⟩ := dict_get_mem eT s row hrow
      have hrl : row.length = 16 := by rw [← hp2]; exact hlenE p hp
      have hget : row.get? n = some (row.getD n '?') := by
        rw [List.get?_eq_get (by omega), List.getD_eq_get _ _ (by omega)]
      have hmem_nc : row.getD n '?' ∈ row := getD_mem_of_lt _ _ _ (by omega)
      have hfacts := hvalE p hp (row.getD n '?') (hp2 ▸ hmem_nc)
      have hnc_eq : ((if st = 0 then dict_get eT s else dict_get nT s).getD []).getD n '?' =
          row.getD n '?' := by rw [if_pos hz, hrow]; rfl
      have hchk_eq : (if st = 0 then table_lookup_chk eT s n else table_lookup_chk nT s n) =
          some (row.getD n '?') := by
        rw [if_pos hz]
        unfold table_lookup_chk
        rw [hrow, Option.some_bind, hget]
      rw [rule_loop_eta eT nT n rest s st (row.getD n '?') hnc_eq _ rfl,
        rule_loop_chk_eta eT nT n rest s st (row.getD n '?') hchk_eq _ rfl]
      by_cases hstop : row.getD n '?' = STOP_CHAR
      · rw [if_pos hstop, if_pos hstop]
      · rw [if_neg hstop, if_neg hstop]
        have hrec : rule_loop_chk eT nT rest (row.getD n '?')
            (if row.getD n '?' = '[' then st + 1
             else if row.getD n '?' = ']' then st - 1 else st) =
            some (rule_loop eT nT rest (row.getD n '?')
              (if row.getD n '?' = '[' then st + 1
               else if row.getD n '?' = ']' then st - 1 else st)) := by
          by_cases hbr : row.getD n '?' = '['
          · rw [if_pos hbr]
            refine ih hl' _ _ (by omega) (fun h => absurd h (by omega)) (fun _ => hbr ▸ hopen)
          · rw [if_neg hbr, if_neg hfacts.1]
            refine ih hl' _ _ hst (fun h => ?_) (fun h => absurd hz (by omega))
            exact hfacts.2 hbr hstop
        rw [hrec]
    · -- non-empty-stack table
      have hstpos : 0 < st := by omega
      obtain ⟨row, hrow⟩ := dict_get_of_mem_keys nT s (hpos hstpos)
      obtain ⟨p, hp, hp2⟩ := dict_get_mem nT s row hrow
      have hrl : row.length = 16 := by rw [← hp2]; exact hlenN p hp
      have hget : row.get? n = some (row.getD n '?') := by
        rw [List.get?_eq_get (by omega), List.getD_eq_get _ _ (by omega)]
      have hmem_nc : row.getD n '?' ∈ row := getD_mem_of_lt _ _ _ (by omega)
      have hfacts := hvalN p hp (row.getD n '?') (hp2 ▸ hmem_nc)
      have hnc_eq : ((if st = 0 then dict_get eT s else dict_get nT s).getD []).getD n '?' =
          row.getD n '?' := by rw [if_neg hz, hrow]; rfl
      have hchk_eq : (if st = 0 then table_lookup_chk eT s n else table_lookup_chk nT s n) =
          some (row.getD n '?') := by
        rw [if_neg hz]
        unfold table_lookup_chk
        rw [hrow, Option.some_bind, hget]
      rw [rule_loop_eta eT nT n rest s st (row.getD n '?') hnc_eq _ rfl,
        rule_loop_chk_eta eT nT n rest s st (row.getD n '?') hchk_eq _ rfl]
      by_cases hstop : row.getD n '?' = STOP_CHAR
      · rw [if_pos hstop, if_pos hstop]
      · rw [if_neg hstop, if_neg hstop]
        have hrec : rule_loop_chk eT nT rest (row.getD n '?')
            (if row.getD n '?' = '[' then st + 1
             else if row.getD n '?' = ']' then st - 1 else st) =
            some (rule_loop eT nT rest (row.getD n '?')
              (if row.getD n '?' = '[' then st + 1
               else if row.getD n '?' = ']' then st - 1 else st)) := by
          by_cases hbr : row.getD n '?' = '['
          · rw [if_pos hbr]
            refine ih hl' _ _ (by omega) (fun h => absurd h (by omega)) (fun _ => hbr ▸ hopen)
          · rw [if_neg hbr]
            by_cases hcl : row.getD n '?' = ']'
            · rw [if_pos hcl]
              refine ih hl' _ _ (by omega) (fun h => hcl ▸ hclE) (fun h => hcl ▸ hclN)
            · rw [if_neg hcl]
              refine ih hl' _ _ hst (fun h => absurd h hz) (fun h => ?_)
              exact hfacts hbr hstop hcl
        rw [hrec]

lemma compiled_rule_chk_eq (eT nT : Table) (hok : TablesOK eT nT)
    (nibs : List Nat) (hnibs : ∀ x ∈ nibs, x < 16) (psize idx : Nat)
    (hbound : idx * psize + min RULE_SIZE_MAX psize ≤ nibs.length) :
    compiled_rule_chk eT nT nibs psize idx = some (compiled_rule eT nT nibs psize idx) := by
  unfold compiled_rule_chk
  have hmapm : (List.range (min RULE_SIZE_MAX psize)).mapM
      (fun i => nibs.get? (idx * psize + i)) =
      some ((List.range (min RULE_SIZE_MAX psize)).map
        (fun i => nibs.getD (idx * psize + i) 0)) := by
    apply list_mapM_eq_map
    intro i hi
    have hilt : i < min RULE_SIZE_MAX psize := List.mem_range.1 hi
    have hidx : idx * psize + i < nibs.length := by omega
    rw [List.get?_eq_get hidx, List.getD_eq_get _ _ hidx]
  rw [hmapm, Option.some_bind]
  have hslice_lt : ∀ x ∈ (List.range (min RULE_SIZE_MAX psize)).map
      (fun i => nibs.getD (idx * psize + i) 0), x < 16 := by
    intro x hx
    obtain ⟨i, hi, hix⟩ := List.mem_map.1 hx
    have hilt : i < min RULE_SIZE_MAX psize := List.mem_range.1 hi
    have hidx : idx * psize + i < nibs.length := by omega
    exact hix ▸ hnibs _ (getD_mem_of_lt _ _ _ hidx)
  have hrun := rule_loop_chk_eq eT nT hok
    ((List.range (min RULE_SIZE_MAX psize)).map (fun i => nibs.getD (idx * psize + i) 0))
    hslice_lt START_CHAR 0 (le_refl 0) (fun _ => hok.1) (fun h => absurd h (lt_irrefl 0))
  rw [hrun]
  rfl

lemma rule_chars_not_special : ∀ c ∈ RULE_CHARS, c ≠ ']' ∧ c ≠ '[' ∧ c ≠ STOP_CHAR := by
  decide

lemma tables_ok_rectified (eTb nTb : Table) (hbase : BaseOK eTb nTb)
    (num : Nat) (h2 : 2 ≤ num) (h7 : num ≤ 7) :
    TablesOK (rectify_transition eTb (RULE_CHARS.take num))
      (rectify_transition nTb (RULE_CHARS.take num)) := by
  obtain ⟨hdot, hopen, hclE, hclN, hlE, hlN, hletters, hvE, hvN⟩ := hbase
  have hkeysE : keys_of (rectify_transition eTb (RULE_CHARS.take num)) = keys_of eTb := by
    unfold keys_of rectify_transition
    rw [List.map_map]
    rfl
  have hkeysN : keys_of (rectify_transition nTb (RULE_CHARS.take num)) = keys_of nTb := by
    unfold keys_of rectify_transition
    rw [List.map_map]
    rfl
  have hlen_take : (RULE_CHARS.take num).length = num := by
    have h7' : RULE_CHARS.length = 7 := rfl
    simp [List.length_take]
    omega
  have havail_sub : RULE_CHARS.take num ⊆ RULE_CHARS := List.take_subset _ _
  have hrect_cases : ∀ c, rectify_char (RULE_CHARS.take num) c = c ∨
      rectify_char (RULE_CHARS.take num) c ∈ RULE_CHARS := by
    intro c
    unfold rectify_char
    split
    · exact Or.inr (havail_sub (getD_mem_of_lt _ _ _
        (by rw [hlen_take]; exact Nat.mod_lt _ (by omega))))
    · exact Or.inl rfl
  have hrect_mem : ∀ (q : Char × List Char) (t : Table), q ∈ t →
      ∀ c ∈ (q.2.map (rectify_char (RULE_CHARS.take num))),
        ∃ c0 ∈ q.2, c = rectify_char (RULE_CHARS.take num) c0 := by
    intro q t hq c hc
    obtain ⟨c0, hc0, he⟩ := List.mem_map.1 hc
    exact ⟨c0, hc0, he.symm⟩
  refine ⟨hkeysE ▸ hdot, hkeysN ▸ hopen, hkeysE ▸ hclE, hkeysN ▸ hclN, ?_, ?_, ?_, ?_⟩
  · intro p hp
    obtain ⟨q, hq, rfl⟩ := List.mem_map.1 hp
    simp only [List.length_map]
    exact hlE q hq
  · intro p hp
    obtain ⟨q, hq, rfl⟩ := List.mem_map.1 hp
    simp only [List.length_map]
    exact hlN q hq
  · -- empty-stack values
    intro p hp c hc
    obtain ⟨q, hq, rfl⟩ := List.mem_map.1 hp
    obtain ⟨c0, hc0, rfl⟩ := hrect_mem q eTb hq c hc
    rw [hkeysE]
    by_cases hc0rc : c0 ∈ RULE_CHARS
    · have hcrc : rectify_char (RULE_CHARS.take num) c0 ∈ RULE_CHARS := by
        rcases hrect_cases c0 with he | he
        · rw [he]; exact hc0rc
        · exact he
      obtain ⟨hne1, hne2, hne3⟩ := rule_chars_not_special _ hcrc
      exact ⟨hne1, fun _ _ => (hletters _ hcrc).1⟩
    · have hid : rectify_char (RULE_CHARS.take num) c0 = c0 := by
        unfold rectify_char
        rw [if_neg (fun hand => hc0rc hand.1)]
      rw [hid]
      have := hvE q hq c0 hc0
      exact ⟨this.1, this.2 hc0rc⟩
  · -- non-empty-stack values
    intro p hp c hc
    obtain ⟨q, hq, rfl⟩ := List.mem_map.1 hp
    obtain ⟨c0, hc0, rfl⟩ := hrect_mem q nTb hq c hc
    rw [hkeysN]
    by_cases hc0rc : c0 ∈ RULE_CHARS
    · have hcrc : rectify_char (RULE_CHARS.take num) c0 ∈ RULE_CHARS := by
        rcases hrect_cases c0 with he | he
        · rw [he]; exact hc0rc
        · exact he
      exact fun _ _ _ => (hletters _ hcrc).2
    · have hid : rectify_char (RULE_CHARS.take num) c0 = c0 := by
        unfold rectify_char
        rw [if_neg (fun hand => hc0rc hand.1)]
      rw [hid]
      exact hvN q hq c0 hc0 hc0rc

lemma base_ok_6op : BaseOK empty_stack_transitions_6op nonempty_transitions_6op := by
  refine ⟨by decide, by decide, by decide, by decide, by decide, by decide, by decide,
    by decide, by decide⟩

lemma base_ok_full : BaseOK empty_stack_transitions_full nonempty_transitions_full := by
  refine ⟨by decide, by decide, by decide, by decide, by decide, by decide, by decide,
    by decide, by decide⟩

/-- Claim C10: for every 32-byte digest and either table variant, every
lookup and index `pushdown_automaton` performs is defined: the variant of
the parser that performs every container access fallibly returns
`some` of the defaulted parser's result. -/
theorem c10_lookups_defined (digest : List Nat) (h32 : digest.length = 32)
    (eTb nTb : Table)
    (hvar : (eTb = empty_stack_transitions_6op ∧ nTb = nonempty_transitions_6op) ∨
      (eTb = empty_stack_transitions_full ∧ nTb = nonempty_transitions_full)) :
    pushdown_automaton_chk digest eTb nTb = some (pushdown_automaton digest eTb nTb) := by
  have hnum := num_of_chars_bounds (parser_first digest)
  have hhead : digest.head? = some (digest.headD 0) := by
    cases digest with
    | nil => simp at h32
    | cons a t => rfl
  have hcollen : COLORS.length = 32 := rfl
  have hcolidx : (digest.headD 0) &&& 0x1F < COLORS.length := by
    rw [hcollen]
    have : (digest.headD 0) &&& 0x1F ≤ 31 := Nat.and_le_right
    omega
  have hcol : COLORS.get? ((digest.headD 0) &&& 0x1F) =
      some (COLORS.getD ((digest.headD 0) &&& 0x1F) "") := by
    rw [List.get?_eq_get hcolidx, List.getD_eq_get _ _ hcolidx]
  have hbase : BaseOK eTb nTb := by
    rcases hvar with ⟨h1, h2⟩ | ⟨h1, h2⟩ <;> rw [h1, h2]
    · exact base_ok_6op
    · exact base_ok_full
  have hok : TablesOK (parser_rect digest eTb) (parser_rect digest nTb) :=
    tables_ok_rectified eTb nTb hbase (parser_num digest) hnum.1 hnum.2
  have hnibs : ∀ x ∈ parser_nibbles digest, x < 16 := bytes_to_nibbles_lt _
  have hrules : (List.mapM
      (fun p => (compiled_rule_chk (parser_rect digest eTb) (parser_rect digest nTb)
        (parser_nibbles digest) (parser_psize digest) p.1).map (fun r => (p.2, r)))
      (parser_avail digest).enum : Option (List (Char × List Char))) =
      some ((parser_avail digest).enum.map
        (fun p => (p.2, compiled_rule (parser_rect digest eTb) (parser_rect digest nTb)
          (parser_nibbles digest) (parser_psize digest) p.1))) := by
    apply list_mapM_eq_map
    intro p hp
    have hidx : p.1 < parser_num digest := by
      have := (List.mem_enum hp).1
      rw [parser_avail_length] at this
      exact this
    rw [compiled_rule_chk_eq _ _ hok _ hnibs _ _
      (by rw [parser_nibbles_length digest h32]; exact slice_index_bound digest p.1 hidx)]
    rfl
  have hseed : (List.mapM
      (fun nib => (parser_avail digest).get? (nib % parser_num digest))
      (parser_seed_nibbles digest) : Option (List Char)) =
      some ((parser_seed_nibbles digest).map
        (fun nib => (parser_avail digest).getD (nib % parser_num digest) '?')) := by
    apply list_mapM_eq_map
    intro nib _
    have hlt : nib % parser_num digest < (parser_avail digest).length := by
      rw [parser_avail_length]
      exact Nat.mod_lt _ (by unfold parser_num; omega)
    rw [List.get?_eq_get hlt, List.getD_eq_get _ _ hlt]
  show digest.head?.bind _ = _
  rw [hhead, Option.some_bind]
  show (COLORS.get? _).bind _ = _
  rw [hcol, Option.some_bind]
  show ((List.mapM
      (fun p => (compiled_rule_chk (parser_rect digest eTb) (parser_rect digest nTb)
        (parser_nibbles digest) (parser_psize digest) p.1).map (fun r => (p.2, r)))
      (parser_avail digest).enum : Option (List (Char × List Char)))).bind
      (fun rules => ((List.mapM
        (fun nib => (parser_avail digest).get? (nib % parser_num digest))
        (parser_seed_nibbles digest) : Option (List Char))).map
        (fun seed => PlantSystem.mk rules seed
          (COLORS.getD ((digest.headD 0) &&& 0x1F) ""))) =
    some (pushdown_automaton digest eTb nTb)
  rw [hrules, Option.some_bind, hseed, Option.map_some']
  rfl

/-- Witness for C10 at a concrete input: on the all-zero digest with the
6-operator tables the checked parser succeeds with the parser's result. -/
theorem c10_lookups_defined_witness :
    pushdown_automaton_chk (List.replicate 32 0) empty_stack_transitions_6op
      nonempty_transitions_6op =
    some (pushdown_automaton (List.replicate 32 0) empty_stack_transitions_6op
      nonempty_transitions_6op) :=
  c10_lookups_defined (List.replicate 32 0) (by decide) _ _ (Or.inl ⟨rfl, rfl⟩)

end PlantDreams
